import Mathlib

/-!
# Verification of the Workable indexed-storage core

A shallow embedding, in Lean 4, of the core of the Workable repository:

* `workable/core/models.py`   — `WorkableFrame`
* `workable/core/content.py`  — `Content` (indexed frame storage + local cache)
* `workable/core/workable.py` — `Workable` (atomic/composite state machine)
* `workable/core/manager.py`  — `WorkableManager` (the registry)

Python dictionaries are modelled as insertion-ordered association lists
(`List (κ × β)` with the first binding of a key shadowing later ones; the
embedding never creates duplicate keys, mirroring `dict`).  Python sets of
sequence numbers are modelled as duplicate-free `List Int` in insertion
order.  A Python `raise` is modelled with `Except PyErr`; a statement that
can raise `KeyError` inside an otherwise total accessor is modelled with
`Option`.  `uuid.uuid4()` is nondeterministic, so every operation that
constructs a fresh unit takes the generated identifier as an explicit
argument.  The `self.manager` back-reference stored on a `Workable`
cannot be represented inside an inductive type (a manager contains the
workables that would contain it); operations that consult it take the
manager as an explicit optional argument instead, `none` corresponding to
a unit whose `manager` attribute is `None`.
-/

set_option maxHeartbeats 1000000
set_option linter.unusedSectionVars false

/-- The exception kinds raised by the embedded code.  Python attaches
message strings; nothing in the verified properties depends on them, so
only the kind is kept. -/
inductive PyErr : Type where
  | contentError
  | workableError
  | conversionError
  | managerError
  | attributeError
  | keyError
  | importError
deriving Repr, DecidableEq

/-! ## Association-list dictionaries (Python `dict`) -/

/-- `d.get(k)` / `d[k]` lookup: first binding of `k`. -/
def lookupA {κ β : Type} [DecidableEq κ] : κ → List (κ × β) → Option β
  | _, [] => none
  | k, (k', v) :: rest => if k' = k then some v else lookupA k rest

/-- `list(d.keys())`. -/
def keysA {κ β : Type} (l : List (κ × β)) : List κ := l.map Prod.fst

/-- `d[k] = v`: replace the binding in place if the key exists, else
append (Python dicts preserve insertion order). -/
def dictInsert {κ β : Type} [DecidableEq κ] (k : κ) (v : β) : List (κ × β) → List (κ × β)
  | [] => [(k, v)]
  | (k', v') :: rest =>
      if k' = k then (k, v) :: rest else (k', v') :: dictInsert k v rest

/-- `del d[k]` (removes the first binding of `k`, a no-op if absent —
the embedding only deletes present keys). -/
def dictErase {κ β : Type} [DecidableEq κ] (k : κ) : List (κ × β) → List (κ × β)
  | [] => []
  | (k', v') :: rest =>
      if k' = k then rest else (k', v') :: dictErase k rest

/-! ## Lists as Python `set` -/

/-- `s.add(x)`. -/
def setAdd {α : Type} [DecidableEq α] (x : α) (s : List α) : List α :=
  if x ∈ s then s else s ++ [x]

/-- `s.discard(x)`. -/
def setDiscard {α : Type} [DecidableEq α] (x : α) (s : List α) : List α :=
  s.filter (fun y => y ≠ x)

/-- Truthiness of an optional string (`if uuid:` in Python). -/
def pyTruthy : Option String → Bool
  | none => false
  | some s => s ≠ ""

/-! ## `WorkableFrame` (`workable/core/models.py`) -/

/-- An index record inside a `Content`.  `metadata` is kept as a
string-to-string association list; nothing verified depends on the value
type. -/
structure WorkableFrame : Type where
  name : String
  logic_description : String
  seq : Int
  frame_type : String
  exref : Option String
  metadata : List (String × String)
deriving Repr, DecidableEq

/-- `WorkableFrame.is_local`. -/
def WorkableFrame.is_local (f : WorkableFrame) : Bool :=
  f.frame_type = "local"

/-- `WorkableFrame.get_reference_uuid`. -/
def WorkableFrame.get_reference_uuid (f : WorkableFrame) : Option String :=
  f.exref

/-! ## `Content` (`workable/core/content.py`) -/

/-- The indexed frame store of one unit.  The cache of local workables
stores values of type `α`; the `Workable` type below instantiates `α`
with itself (a nested inductive). -/
structure Content (α : Type) : Type where
  content_type : String
  content : String
  frames_by_seq : List (Int × WorkableFrame)
  frames_by_uuid : List (String × List Int)
  frames_by_type : List (String × List Int)
  next_seq : Int
  local_workables_cache : List (String × α)

namespace Content

/-- `Content(content_type, content)` — the constructor defaults. -/
def init {α : Type} (content_type : String := "text") (content : String := "") : Content α :=
  ⟨content_type, content, [], [], [], 1, []⟩

/-- `Content.get_frame(seq)` — `dict.get`, total. -/
def get_frame {α : Type} (c : Content α) (seq : Int) : Option WorkableFrame :=
  lookupA seq c.frames_by_seq

/-- `Content.get_workable(uuid)` — cache lookup, total. -/
def get_workable {α : Type} (c : Content α) (uuid : String) : Option α :=
  lookupA uuid c.local_workables_cache

/-- `Content.get_main_frame()` — the frame with the smallest sequence
number, `None` when empty.  The inner subscript cannot fail because the
minimum is taken over the keys themselves. -/
def get_main_frame {α : Type} (c : Content α) : Option WorkableFrame :=
  match (keysA c.frames_by_seq).min? with
  | none => none
  | some m => lookupA m c.frames_by_seq

/-- `Content.get_frame_by_uuid(uuid, frame_type)`.  The body subscripts
`frames_by_seq[seq]` for every `seq` recorded in the uuid index; a stale
index entry raises `KeyError`, modelled by `none`. -/
def get_frame_by_uuid {α : Type} (c : Content α) (uuid : String)
    (frame_type : Option String := none) : Option (List WorkableFrame) :=
  match lookupA uuid c.frames_by_uuid with
  | none => some []
  | some seqs => do
      let frames ← seqs.mapM (fun s => lookupA s c.frames_by_seq)
      match frame_type with
      | none => some frames
      | some ft => some (frames.filter (fun f => f.frame_type = ft))

/-- `Content.get_frames_by_type(frame_type)`.  Subscripts
`frames_by_seq[seq]` for every `seq` in the type index; a stale entry
raises `KeyError`, modelled by `none`. -/
def get_frames_by_type {α : Type} (c : Content α) (frame_type : String) :
    Option (List WorkableFrame) :=
  match lookupA frame_type c.frames_by_type with
  | none => some []
  | some seqs => seqs.mapM (fun s => lookupA s c.frames_by_seq)

/-- `Content.add_frame(name, logic_description, frame_type, uuid, is_local,
metadata)`: validates the arguments, allocates `next_seq`, inserts into
the primary map and (for a truthy uuid) the uuid index and the type
index.  Returns the allocated sequence number with the new state. -/
def add_frame {α : Type} (c : Content α) (name logic_description : String)
    (frame_type : String := "reference") (uuid : Option String := none)
    (is_local : Bool := false) (metadata : List (String × String) := []) :
    Except PyErr (Int × Content α) :=
  if name = "" ∨ logic_description = "" then
    .error .contentError
  else if uuid = none ∧ frame_type ≠ "empty" then
    .error .contentError
  else
    let seq := c.next_seq
    let ft := if is_local then "local" else frame_type
    let frame : WorkableFrame :=
      ⟨name, logic_description, seq, ft, uuid, metadata⟩
    let fbs := dictInsert seq frame c.frames_by_seq
    let fbu :=
      if pyTruthy uuid then
        match uuid with
        | some u => dictInsert u (setAdd seq ((lookupA u c.frames_by_uuid).getD [])) c.frames_by_uuid
        | none => c.frames_by_uuid
      else c.frames_by_uuid
    let fbt := dictInsert ft (setAdd seq ((lookupA ft c.frames_by_type).getD [])) c.frames_by_type
    .ok (seq, { c with
      frames_by_seq := fbs
      frames_by_uuid := fbu
      frames_by_type := fbt
      next_seq := c.next_seq + 1 })

/-- `Content.remove_frame(seq)`: removes the frame from the primary map
and discards its sequence number from the uuid index (when the reference
is truthy and present) and from the type index, deleting index keys whose
sets become empty.  Returns the removed frame. -/
def remove_frame {α : Type} (c : Content α) (seq : Int) :
    Except PyErr (WorkableFrame × Content α) :=
  match lookupA seq c.frames_by_seq with
  | none => .error .contentError
  | some frame =>
    let fbs := dictErase seq c.frames_by_seq
    let fbu :=
      match frame.get_reference_uuid with
      | some u =>
        if pyTruthy (some u) then
          match lookupA u c.frames_by_uuid with
          | some ss =>
            let ss' := setDiscard seq ss
            if ss' = [] then dictErase u c.frames_by_uuid
            else dictInsert u ss' c.frames_by_uuid
          | none => c.frames_by_uuid
        else c.frames_by_uuid
      | none => c.frames_by_uuid
    let fbt :=
      match lookupA frame.frame_type c.frames_by_type with
      | some ss =>
        let ss' := setDiscard seq ss
        if ss' = [] then dictErase frame.frame_type c.frames_by_type
        else dictInsert frame.frame_type ss' c.frames_by_type
      | none => c.frames_by_type
    .ok (frame, { c with
      frames_by_seq := fbs
      frames_by_uuid := fbu
      frames_by_type := fbt })

/-- `Content.remove_local_workable(uuid)`: drops the cache entry and then
removes every frame recorded for `uuid` in the uuid index, in descending
sequence order. -/
def remove_local_workable {α : Type} (c : Content α) (uuid : String) :
    Except PyErr (Content α) :=
  if (lookupA uuid c.local_workables_cache).isNone then
    .error .contentError
  else
    let seqs_to_remove := (lookupA uuid c.frames_by_uuid).getD []
    let c1 := { c with local_workables_cache := dictErase uuid c.local_workables_cache }
    let sorted := ((seqs_to_remove.insertionSort (· ≤ ·)).reverse)
    sorted.foldlM (fun acc s => do
      let (_, acc') ← acc.remove_frame s
      pure acc') c1

/-- The renumbering `move_frame` applies to the sequence number of a
frame that is not the moved one: positions strictly between the two
endpoints shift by one towards the vacated slot. -/
def moveShift (from_seq to_seq seq : Int) : Int :=
  if from_seq < to_seq ∧ from_seq < seq ∧ seq ≤ to_seq then seq - 1
  else if from_seq > to_seq ∧ to_seq ≤ seq ∧ seq < from_seq then seq + 1
  else seq

/-- The body of `move_frame`'s rebuild loop: skip the moved frame,
renumber every other frame into the new primary map, and patch the uuid
index entry of its reference in place. -/
def moveStep (from_seq to_seq : Int)
    (st : List (Int × WorkableFrame) × List (String × List Int))
    (item : Int × WorkableFrame) :
    List (Int × WorkableFrame) × List (String × List Int) :=
  let (newMap, fbu) := st
  let (seq, f) := item
  if seq = from_seq then st
  else
    let new_seq := moveShift from_seq to_seq seq
    let f' := { f with seq := new_seq }
    let newMap' := dictInsert new_seq f' newMap
    let fbu' :=
      match f.get_reference_uuid with
      | some u =>
        match lookupA u fbu with
        | some ss =>
          if seq ∈ ss then dictInsert u (setAdd new_seq (setDiscard seq ss)) fbu
          else fbu
        | none => fbu
      | none => fbu
    (newMap', fbu')

/-- The first component of `moveStep`'s action, as a standalone fold
step on the new primary map (the uuid-index component of `moveStep`
never feeds back into it). -/
def moveStepMap (from_seq to_seq : Int) (acc : List (Int × WorkableFrame))
    (item : Int × WorkableFrame) : List (Int × WorkableFrame) :=
  if item.1 = from_seq then acc
  else dictInsert (moveShift from_seq to_seq item.1)
    { item.2 with seq := moveShift from_seq to_seq item.1 } acc

/-- `Content.move_frame(from_seq, to_seq)`: renumbers the frame sequence.
Frames strictly between the two positions shift by one; the uuid index is
patched entry by entry during the rebuild; the type index is not touched;
`next_seq` is recomputed as `max + 1`. -/
def move_frame {α : Type} (c : Content α) (from_seq to_seq : Int) :
    Except PyErr (Content α) :=
  match lookupA from_seq c.frames_by_seq with
  | none => .error .contentError
  | some frame =>
    if to_seq < 0 then .error .contentError
    else if from_seq = to_seq then .ok c
    else
      let sortedItems := c.frames_by_seq.insertionSort (fun p q => p.1 ≤ q.1)
      let (newMap, fbu) := sortedItems.foldl (moveStep from_seq to_seq) ([], c.frames_by_uuid)
      let frame' := { frame with seq := to_seq }
      let newMap' := dictInsert to_seq frame' newMap
      let fbu' :=
        match frame.get_reference_uuid with
        | some u =>
          match lookupA u fbu with
          | some ss =>
            if from_seq ∈ ss then dictInsert u (setAdd to_seq (setDiscard from_seq ss)) fbu
            else fbu
          | none => fbu
        | none => fbu
      let next :=
        match (keysA newMap').max? with
        | some m => m + 1
        | none => 0
      .ok { c with
        frames_by_seq := newMap'
        frames_by_uuid := fbu'
        next_seq := next }

/-- `Content.validate()`: the list of orphan local frames (a truthy local
reference with no cache entry) and the list of ghost cache entries (a
cached uuid with no key in the uuid index). -/
def validate {α : Type} (c : Content α) : Bool × List Int × List String :=
  let orphan_frames :=
    (c.frames_by_seq.filter (fun (⟨_, f⟩ : Int × WorkableFrame) =>
      pyTruthy f.get_reference_uuid ∧ f.is_local ∧
        ¬ (f.get_reference_uuid.getD "") ∈ keysA c.local_workables_cache)).map Prod.fst
  let ghost_workables :=
    (keysA c.local_workables_cache).filter
      (fun u => ¬ u ∈ keysA c.frames_by_uuid)
  (orphan_frames = [] ∧ ghost_workables = [], orphan_frames, ghost_workables)

end Content

/-! ## `Workable` (`workable/core/workable.py`)

A `Workable` owns a `Content` whose local cache holds `Workable`s, and
two reference caches holding `Workable`s, so the type is a nested
inductive: the fields live in `WorkableCore`, parameterised by the unit
type, and `Workable` ties the knot.  The `message_manager`,
`relation_manager` and `logger` attributes are out of the verified scope
(spec §1) and are omitted; the `manager` back-reference is passed
explicitly where consulted. -/

/-- The attribute record of a unit.  `is_converted_content` and
`is_local` are attributes Python attaches dynamically (`hasattr` tested);
they are modelled as booleans that start `false`. -/
structure WorkableCore (ω : Type) : Type where
  uuid : String
  name : String
  logic_description : String
  is_atom_flag : Bool
  content : Content ω
  child_references : Option (List (String × ω))
  local_references : List (String × ω)
  is_converted_content : Bool
  is_local : Bool

/-- A unit: atomic or composite, per `is_atom_flag`. -/
inductive Workable : Type where
  | mk : WorkableCore Workable → Workable

/-- Unfold the knot. -/
@[reducible] def Workable.core : Workable → WorkableCore Workable
  | .mk c => c

namespace Workable

def uuid (w : Workable) : String := w.core.uuid
def name (w : Workable) : String := w.core.name
def logic_description (w : Workable) : String := w.core.logic_description
def is_atom_flag (w : Workable) : Bool := w.core.is_atom_flag
def content (w : Workable) : Content Workable := w.core.content
def child_references (w : Workable) : Option (List (String × Workable)) := w.core.child_references
def local_references (w : Workable) : List (String × Workable) := w.core.local_references
def is_converted_content (w : Workable) : Bool := w.core.is_converted_content

/-- `Workable.__init__(name, logic_description, is_atom, content_str,
content_type)`.  The generated `uuid.uuid4()` is taken as an argument.
An atomic unit with a truthy `content_str` gets a payload-bearing
`Content`; otherwise the default empty container (`Content()`, whose
content type defaults to `"text"`). -/
def init (uuid name logic_description : String) (is_atom : Bool)
    (content_str : Option String := none) (content_type : String := "code") :
    Workable :=
  .mk {
    uuid := uuid
    name := name
    logic_description := logic_description
    is_atom_flag := is_atom
    content :=
      if is_atom ∧ pyTruthy content_str then
        Content.init content_type (content_str.getD "")
      else
        Content.init
    child_references := if is_atom then none else some []
    local_references := []
    is_converted_content := false
    is_local := false }

/-- `Workable.is_atom()`. -/
def is_atom (w : Workable) : Bool := w.is_atom_flag

/-- `Workable.is_complex()`. -/
def is_complex (w : Workable) : Bool := ¬ w.is_atom

/-- `Workable.add_local(local)`: rejects composite arguments, marks the
argument as local, caches it in `local_references` and records a
`local`-type frame through `Content.add_frame` — note: not through
`Content.add_local_workable`, so the content's local cache is not
written. -/
def add_local (w : Workable) (l : Workable) : Except PyErr Workable :=
  if ¬ l.is_atom then .error .workableError
  else
    let l' := .mk { l.core with is_local := true }
    let locals' := dictInsert l.uuid l' w.local_references
    match w.content.add_frame l.name l.logic_description "local" (some l.uuid) true [] with
    | .error e => .error e
    | .ok (_, content') =>
        .ok (.mk { w.core with content := content', local_references := locals' })

/-- `Workable.get_locals()`: the `local`-type frames resolved through the
unit's own `local_references` cache (never the registry); unresolvable
frames are skipped.  Reading the type index can raise `KeyError` when it
is stale, hence `Option`. -/
def get_locals (w : Workable) : Option (List Workable) := do
  let local_frames ← w.content.get_frames_by_type "local"
  pure (local_frames.filterMap (fun f =>
    match f.get_reference_uuid with
    | some u => lookupA u w.local_references
    | none => none))

/-- `Workable.add_child(child)`: composite-only; caches the reference and
records a `child`-type frame. -/
def add_child (w : Workable) (child : Workable) : Except PyErr Workable :=
  if w.is_atom then .error .attributeError
  else
    let kids := (w.child_references.getD [])
    let kids' := dictInsert child.uuid child kids
    match w.content.add_frame child.name child.logic_description "child" (some child.uuid) false [] with
    | .error e => .error e
    | .ok (_, content') =>
        .ok (.mk { w.core with content := content', child_references := some kids' })

/-- `Workable.remove_child(uuid)`: composite-only; drops the cached
reference and removes every `child`-type frame for `uuid` (found via
`get_frame_by_uuid`, which can raise `KeyError` on a stale index). -/
def remove_child (w : Workable) (uuid : String) : Except PyErr (Bool × Workable) :=
  if w.is_atom then .error .attributeError
  else
    let kids' := dictErase uuid (w.child_references.getD [])
    match w.content.get_frame_by_uuid uuid (some "child") with
    | none => .error .keyError
    | some frames => do
        let content' ← frames.foldlM (fun acc f => do
          let (_, acc') ← acc.remove_frame f.seq
          pure acc') w.content
        pure (frames ≠ [],
          .mk { w.core with content := content', child_references := some kids' })

/-- `Workable.get_children()`: composite-only.  Each `child` frame is
resolved first against the reference cache, then (on a miss) against the
manager when one is attached; the manager argument stands for
`self.manager`.  Registry-side cache refreshing is a cache write only and
is dropped here (the caller's copy of the unit is unchanged in the
properties verified).  Reading a stale type index raises `KeyError`. -/
def get_children (w : Workable) (managerTable : List (String × Workable)) :
    Except PyErr (List Workable) :=
  if w.is_atom then .error .attributeError
  else
    match w.content.get_frames_by_type "child" with
    | none => .error .keyError
    | some child_frames =>
        .ok (child_frames.filterMap (fun f =>
          match f.get_reference_uuid with
          | some u =>
            match lookupA u (w.child_references.getD []) with
            | some child => some child
            | none => lookupA u managerTable
          | none => none))

/-- `Workable.child_workables` (property): `{}` for an atomic unit, else
the resolved children keyed by uuid. -/
def child_workables (w : Workable) (managerTable : List (String × Workable)) :
    Except PyErr (List (String × Workable)) :=
  if w.is_atom then .ok []
  else do
    let kids ← w.get_children managerTable
    pure (kids.foldl (fun acc c => dictInsert c.uuid c acc) [])

/-- `Workable.make_complex()`: already composite is a logged no-op.  A
truthy payload is wrapped into a fresh atomic unit (name suffixed with
`"_content"`, marked `is_converted_content`), the content container is
replaced with an empty one and the wrapper is attached via `add_local`;
then the flag flips and the child-reference dict is initialised.  The
fresh unit's generated uuid is the `fresh_uuid` argument. -/
def make_complex (w : Workable) (fresh_uuid : String) : Except PyErr Workable :=
  if ¬ w.is_atom then .ok w
  else
    let original_content := w.content.content
    let original_content_type := w.content.content_type
    let afterLocal : Except PyErr Workable :=
      if original_content ≠ "" then
        let local_workable :=
          init fresh_uuid (w.name ++ "_content") w.logic_description true
            (some original_content) original_content_type
        let local_workable :=
          .mk { local_workable.core with is_converted_content := true }
        let w1 : Workable := .mk { w.core with content := Content.init }
        w1.add_local local_workable
      else .ok w
    match afterLocal with
    | .error e => .error e
    | .ok w2 =>
        .ok (.mk { w2.core with is_atom_flag := false, child_references := some [] })

/-- `Workable.make_simple()`: already atomic is a logged no-op.  Raises
`ConversionError` if any `child` frame exists; otherwise looks for a
cached local marked `is_converted_content`, and failing that demands
exactly one `local` frame whose referenced uuid resolves in
`local_references`.  On success the chosen local's payload becomes a
fresh `Content`, the flag flips and both reference caches are cleared. -/
def make_simple (w : Workable) : Except PyErr Workable :=
  if w.is_atom then .ok w
  else
    match w.content.get_frames_by_type "child" with
    | none => .error .keyError
    | some child_frames =>
      if child_frames ≠ [] then .error .conversionError
      else
        let marked := w.local_references.find? (fun p => p.2.is_converted_content)
        let content_workable : Except PyErr Workable :=
          match marked with
          | some (_, cw) => .ok cw
          | none =>
            match w.content.get_frames_by_type "local" with
            | none => .error .keyError
            | some local_frames =>
              match local_frames with
              | [f] =>
                match f.get_reference_uuid with
                | some u =>
                  match lookupA u w.local_references with
                  | some cw => .ok cw
                  | none => .error .conversionError
                | none => .error .conversionError
              | _ => .error .conversionError
        match content_workable with
        | .error e => .error e
        | .ok cw =>
            .ok (.mk { w.core with
              content := Content.init cw.content.content_type cw.content.content
              is_atom_flag := true
              local_references := []
              child_references := none })

end Workable

/-- `Content.add_local_workable(workable)`: rejects a uuid already
cached, caches the workable, then records a `local` frame via
`add_frame`.  (Specialised to `Workable` because it reads the cached
object's attributes.) -/
def Content.add_local_workable (c : Content Workable) (w : Workable) :
    Except PyErr (Int × Content Workable) :=
  if (lookupA w.uuid c.local_workables_cache).isSome then
    .error .contentError
  else
    let c1 := { c with local_workables_cache := dictInsert w.uuid w c.local_workables_cache }
    c1.add_frame w.name w.logic_description "local" (some w.uuid) true []

/-! ## `WorkableManager` (`workable/core/manager.py`)

`manager.py` begins with

```python
from workable.core.workable import (
    Workable, SimpleWorkable, ComplexWorkable,
    convert_simple_to_complex, convert_complex_to_simple
)
```

but `workable/core/workable.py` defines no class named `SimpleWorkable`
or `ComplexWorkable` (and neither does any other source file), so that
statement — and with it every use of the registry — fails at module
load time.  Name resolution is modelled explicitly below; the bodies of the
registry operations are additionally embedded against spec-modelled
stand-ins for the two missing classes so that their internal logic can
be examined. -/

/-- The names defined at the top level of `workable/core/workable.py`. -/
def workableModuleDefs : List String :=
  ["Workable", "convert_simple_to_complex", "convert_complex_to_simple"]

/-- The names `workable/core/manager.py` imports from
`workable.core.workable` (manager.py lines 8–11). -/
def managerWorkableImports : List String :=
  ["Workable", "SimpleWorkable", "ComplexWorkable",
   "convert_simple_to_complex", "convert_complex_to_simple"]

/-- Loading `workable.core.manager` succeeds only when every name of its
imported list resolves in the workable module. -/
def managerModuleLoads : Bool :=
  managerWorkableImports.all (fun n => workableModuleDefs.contains n)

/-- The guard every registry entry point sits behind: the module must
have loaded. -/
def requireManagerModule : Except PyErr Unit :=
  if managerModuleLoads then .ok () else .error .importError

/-- Modelled from the spec: the class `SimpleWorkable` is imported and
called by `manager.py` but missing from the source.  Spec §4.3 says
`create` "constructs a Unit", and the glossary defines an atomic unit as
one holding a content blob, so `SimpleWorkable(name, logic_description,
content, content_type)` is modelled as the `Workable` constructor with
`is_atom=True` and the given payload. -/
def SimpleWorkable (uuid name logic_description content : String)
    (content_type : String := "code") : Workable :=
  Workable.init uuid name logic_description true (some content) content_type

/-- Modelled from the spec: the class `ComplexWorkable` is imported and
called by `manager.py` but missing from the source; per spec §4.3 it is
the composite-unit constructor. -/
def ComplexWorkable (uuid name logic_description : String) : Workable :=
  Workable.init uuid name logic_description false none "code"

/-- Modelled from the spec: `isinstance(w, ComplexWorkable)` under the
missing-class reading — the unit is composite. -/
def isinstanceComplexWorkable (w : Workable) : Bool := w.is_complex

/-- The registry: the process-wide uuid → unit table. -/
structure WorkableManager : Type where
  workables : List (String × Workable)

namespace WorkableManager

/-- `WorkableManager()`. -/
def init : WorkableManager := ⟨[]⟩

/-- `WorkableManager.read(uuid)`: `None` for a falsy uuid or a miss. -/
def read (m : WorkableManager) (uuid : String) : Option Workable :=
  if uuid = "" then none else lookupA uuid m.workables

/-- `WorkableManager.get_all_workables()` (a copy of the table). -/
def get_all_workables (m : WorkableManager) : List (String × Workable) :=
  m.workables

/-- `WorkableManager.create_simple(name, logic_description, content,
content_type)`: validates `name`, constructs a `SimpleWorkable` (whose
generated uuid is the `fresh_uuid` argument), raises `WorkableError` on
a uuid collision — there is no retry — and otherwise registers it. -/
def create_simple (m : WorkableManager) (fresh_uuid : String)
    (name logic_description content : String) (content_type : String := "code") :
    Except PyErr (Workable × WorkableManager) :=
  if name = "" then .error .workableError
  else
    let w := SimpleWorkable fresh_uuid name logic_description content content_type
    if (lookupA w.uuid m.workables).isSome then .error .workableError
    else .ok (w, ⟨dictInsert w.uuid w m.workables⟩)

/-- `WorkableManager.create_complex(name, logic_description)`: same
shape as `create_simple`, with the composite constructor. -/
def create_complex (m : WorkableManager) (fresh_uuid : String)
    (name logic_description : String) :
    Except PyErr (Workable × WorkableManager) :=
  if name = "" then .error .workableError
  else
    let w := ComplexWorkable fresh_uuid name logic_description
    if (lookupA w.uuid m.workables).isSome then .error .workableError
    else .ok (w, ⟨dictInsert w.uuid w m.workables⟩)

/-- `WorkableManager.delete(uuid)`: raises on a missing uuid, otherwise
walks the table, removing the deleted unit from the children of every
composite unit whose `child_workables` resolves it, and finally drops
the table entry.  Python mutates each unit in place while iterating; the
functional model rebuilds the table in the same order.  The
child-resolution pass consults this registry's own table, corresponding
to units whose `manager` attribute is this registry (the reference cache
is checked first either way). -/
def delete (m : WorkableManager) (uuid : String) :
    Except PyErr (Bool × WorkableManager) :=
  if uuid = "" ∨ (lookupA uuid m.workables).isNone then .error .workableError
  else do
    let table ← m.workables.foldlM
      (fun (acc : List (String × Workable)) (p : String × Workable) => do
        let (wu, w) := p
        if isinstanceComplexWorkable w then
          let kids ← w.child_workables m.workables
          if (lookupA uuid kids).isSome then
            let (_, w') ← w.remove_child uuid
            pure (dictInsert wu w' acc)
          else
            pure (dictInsert wu w acc)
        else
          pure (dictInsert wu w acc)) []
    .ok (true, ⟨dictErase uuid table⟩)

/-- `WorkableManager.build_parent_map()`: child uuid → parent uuid,
recomputed by scanning every composite unit's resolved children and its
content's local cache. -/
def build_parent_map (m : WorkableManager) : Except PyErr (List (String × String)) :=
  m.workables.foldlM
    (fun (acc : List (String × String)) (p : String × Workable) => do
      let (parent_uuid, w) := p
      if isinstanceComplexWorkable w then
        let kids ← w.child_workables m.workables
        let acc1 := (keysA kids).foldl (fun a cu => dictInsert cu parent_uuid a) acc
        pure ((keysA w.content.local_workables_cache).foldl
          (fun a lu => dictInsert lu parent_uuid a) acc1)
      else
        pure acc) []

/-- `WorkableManager.get_all_roots()`: registered uuids that are nobody's
child (Python takes a set difference; the model keeps table order). -/
def get_all_roots (m : WorkableManager) : Except PyErr (List String) := do
  let pm ← m.build_parent_map
  pure ((keysA m.workables).filter (fun u => ¬ u ∈ keysA pm))

/-! The entry points as shipped: each one sits behind the module import,
which resolves `SimpleWorkable` and `ComplexWorkable`. -/

/-- `create_simple` as shipped (behind the module import). -/
def create_simple_shipped (m : WorkableManager) (fresh_uuid : String)
    (name logic_description content : String) (content_type : String := "code") :
    Except PyErr (Workable × WorkableManager) := do
  requireManagerModule
  m.create_simple fresh_uuid name logic_description content content_type

/-- `create_complex` as shipped (behind the module import). -/
def create_complex_shipped (m : WorkableManager) (fresh_uuid : String)
    (name logic_description : String) : Except PyErr (Workable × WorkableManager) := do
  requireManagerModule
  m.create_complex fresh_uuid name logic_description

/-- `delete` as shipped (behind the module import). -/
def delete_shipped (m : WorkableManager) (uuid : String) :
    Except PyErr (Bool × WorkableManager) := do
  requireManagerModule
  m.delete uuid

/-- `build_parent_map` as shipped (behind the module import). -/
def build_parent_map_shipped (m : WorkableManager) :
    Except PyErr (List (String × String)) := do
  requireManagerModule
  m.build_parent_map

/-- `get_all_roots` as shipped (behind the module import). -/
def get_all_roots_shipped (m : WorkableManager) : Except PyErr (List String) := do
  requireManagerModule
  m.get_all_roots

end WorkableManager

/-! ## Operation sequences over a `Content` (for the invariant claims) -/

/-- One call of the four mutators named by the content invariant. -/
inductive COp : Type where
  | add_frame (name logic_description frame_type : String)
      (uuid : Option String) (is_local : Bool)
  | add_local_workable (w : Workable)
  | remove_frame (seq : Int)
  | remove_local_workable (uuid : String)

/-- Run one operation (the returned seq/frame/flag is discarded). -/
def runOp (c : Content Workable) : COp → Except PyErr (Content Workable)
  | .add_frame n d ft u il => do
      let (_, c') ← c.add_frame n d ft u il []
      pure c'
  | .add_local_workable w => do
      let (_, c') ← c.add_local_workable w
      pure c'
  | .remove_frame s => do
      let (_, c') ← c.remove_frame s
      pure c'
  | .remove_local_workable u => c.remove_local_workable u

/-- Run a sequence of operations, failing on the first raise. -/
def runOps (c : Content Workable) : List COp → Except PyErr (Content Workable)
  | [] => .ok c
  | op :: ops => do
      let c' ← runOp c op
      runOps c' ops

/-- The side conditions under which the four mutators preserve the
validate invariant: `add_frame` must not plant a local-typed frame (and
must carry either no reference or a nonempty one), `add_local_workable`
must cache a unit with a nonempty id, and `remove_frame` must not strip
a local frame out from under its cache entry. -/
def goodStep (c : Content Workable) : COp → Prop
  | .add_frame _ _ ft u il => il = false ∧ ft ≠ "local" ∧ u ≠ some ""
  | .add_local_workable w => w.uuid ≠ ""
  | .remove_frame s =>
      ∀ f, lookupA s c.frames_by_seq = some f → f.frame_type ≠ "local"
  | .remove_local_workable _ => True

/-- A run of operations in which every step succeeds and respects its
side condition. -/
inductive GoodRun : Content Workable → List COp → Content Workable → Prop where
  | nil (c : Content Workable) : GoodRun c [] c
  | cons {c c' c'' : Content Workable} {op : COp} {ops : List COp} :
      goodStep c op → runOp c op = .ok c' → GoodRun c' ops c'' →
      GoodRun c (op :: ops) c''

/-! ## Well-formedness of a `Content` state -/

/-- The uuid index only mentions live sequence numbers. -/
def uuidIndexSound {α : Type} (c : Content α) : Prop :=
  ∀ u ss, lookupA u c.frames_by_uuid = some ss →
    ∀ s ∈ ss, (lookupA s c.frames_by_seq).isSome

/-- The type index only mentions live sequence numbers. -/
def typeIndexSound {α : Type} (c : Content α) : Prop :=
  ∀ ty ss, lookupA ty c.frames_by_type = some ss →
    ∀ s ∈ ss, (lookupA s c.frames_by_seq).isSome

/-- Full well-formedness of a `Content`, as maintained by the good runs
of the four mutators starting from an empty container. -/
structure WFC {α : Type} (c : Content α) : Prop where
  nodupSeq : (keysA c.frames_by_seq).Nodup
  nodupUuid : (keysA c.frames_by_uuid).Nodup
  nodupCache : (keysA c.local_workables_cache).Nodup
  seqPos : ∀ s ∈ keysA c.frames_by_seq, 1 ≤ s ∧ s < c.next_seq
  nextPos : 1 ≤ c.next_seq
  idxEntries : ∀ u ss, lookupA u c.frames_by_uuid = some ss →
    ss ≠ [] ∧ ss.Nodup ∧
    ∀ s ∈ ss, ∃ f, lookupA s c.frames_by_seq = some f ∧ f.exref = some u
  idxComplete : ∀ s f, lookupA s c.frames_by_seq = some f →
    ∀ u, f.exref = some u →
      ∃ ss, lookupA u c.frames_by_uuid = some ss ∧ s ∈ ss
  exrefNE : ∀ s f, lookupA s c.frames_by_seq = some f → f.exref ≠ some ""
  localCached : ∀ s f, lookupA s c.frames_by_seq = some f →
    f.frame_type = "local" →
      ∃ u, f.exref = some u ∧ u ∈ keysA c.local_workables_cache
  cacheLocal : ∀ u ∈ keysA c.local_workables_cache,
    ∃ s f, lookupA s c.frames_by_seq = some f ∧ f.exref = some u ∧
      f.frame_type = "local"

/-- The cache-independent part of `WFC`: the fields that every
successful `remove_frame` preserves unconditionally (the two
cache-coupling fields `localCached`/`cacheLocal` are tracked separately,
because `remove_local_workable` restores them only at the end of its
removal loop). -/
structure WFC0 {α : Type} (c : Content α) : Prop where
  nodupSeq : (keysA c.frames_by_seq).Nodup
  nodupUuid : (keysA c.frames_by_uuid).Nodup
  nodupCache : (keysA c.local_workables_cache).Nodup
  seqPos : ∀ s ∈ keysA c.frames_by_seq, 1 ≤ s ∧ s < c.next_seq
  nextPos : 1 ≤ c.next_seq
  idxEntries : ∀ u ss, lookupA u c.frames_by_uuid = some ss →
    ss ≠ [] ∧ ss.Nodup ∧
    ∀ s ∈ ss, ∃ f, lookupA s c.frames_by_seq = some f ∧ f.exref = some u
  idxComplete : ∀ s f, lookupA s c.frames_by_seq = some f →
    ∀ u, f.exref = some u →
      ∃ ss, lookupA u c.frames_by_uuid = some ss ∧ s ∈ ss
  exrefNE : ∀ s f, lookupA s c.frames_by_seq = some f → f.exref ≠ some ""

/-- The single-local tail of `make_simple` (the behaviour after the
child check passes and no conversion-marked local is cached), as a
standalone function of the `local`-frame list. -/
def make_simple_unmarked_residual (w : Workable) (ll : List WorkableFrame) :
    Except PyErr Workable :=
  match (match ll with
    | [f] =>
      (match f.get_reference_uuid with
       | some u =>
         (match lookupA u w.local_references with
          | some cw => Except.ok cw
          | none => Except.error PyErr.conversionError)
       | none => Except.error PyErr.conversionError)
    | _ => Except.error PyErr.conversionError : Except PyErr Workable) with
  | .error e => .error e
  | .ok cw => .ok (.mk { w.core with
      content := Content.init cw.content.content_type cw.content.content
      is_atom_flag := true
      local_references := []
      child_references := none })

/-- A content holding exactly one `local` frame referencing `"lu"`: the
state `Content().add_frame("ln", "ld", "local", "lu")` produces. -/
def cC5 : Content Workable :=
  ⟨"text", "", [(1, ⟨"ln", "ld", 1, "local", some "lu", []⟩)],
   [("lu", [1])], [("local", [1])], 2, []⟩

/-- A composite unit whose content is `cC5` and whose local-reference
map is empty: the state of `Workable("w0", "d", is_atom=False)` after
the in-place call `w.content.add_frame("ln", "ld", "local", "lu")`. -/
def wC5 : Workable :=
  .mk ⟨"w0", "n", "d", false, cC5, some [], [], false, false⟩

/-! # Concrete states used by witnesses and counterexamples -/

/-- A one-frame content: the state after
`Content().add_frame("a", "d", "reference", "u")`. -/
def cMoveWitness : Content Workable :=
  ⟨"text", "", [(1, ⟨"a", "d", 1, "reference", some "u", []⟩)],
   [("u", [1])], [("reference", [1])], 2, []⟩

/-- The state `cMoveWitness.move_frame 1 2` produces. -/
def cMoveWitnessAfter : Content Workable :=
  ⟨"text", "", [(2, ⟨"a", "d", 2, "reference", some "u", []⟩)],
   [("u", [2])], [("reference", [1])], 3, []⟩

/-- A two-frame content (frames at seqs 1 and 2, each recording its own
sequence number), used to witness the move/unmove round trip. -/
def cC8 : Content Workable :=
  ⟨"text", "", [(1, ⟨"a", "d", 1, "child", some "u1", []⟩),
                (2, ⟨"b", "d", 2, "reference", some "u2", []⟩)],
   [("u1", [1]), ("u2", [2])], [("child", [1]), ("reference", [2])], 3, []⟩

/-! # Proof infrastructure: association lists, sets, sorting -/

section DictLemmas

variable {κ β : Type} [DecidableEq κ]

theorem mem_keysA_iff {k : κ} {l : List (κ × β)} :
    k ∈ keysA l ↔ ∃ v, (k, v) ∈ l := by
  simp [keysA, List.mem_map]

theorem lookupA_isSome_iff {k : κ} {l : List (κ × β)} :
    (lookupA k l).isSome ↔ k ∈ keysA l := by
  induction l with
  | nil => simp [lookupA, keysA]
  | cons p rest ih =>
    obtain ⟨k', v⟩ := p
    by_cases h : k' = k
    · subst h; simp [lookupA, keysA]
    · simp only [lookupA, if_neg h, keysA, List.map_cons, List.mem_cons, ih, keysA]
      constructor
      · intro hmem; exact Or.inr hmem
      · rintro (rfl | hmem)
        · exact absurd rfl h
        · exact hmem

theorem lookupA_eq_none_iff {k : κ} {l : List (κ × β)} :
    lookupA k l = none ↔ ¬ k ∈ keysA l := by
  rw [← lookupA_isSome_iff]
  cases lookupA k l <;> simp

theorem lookupA_mem {k : κ} {v : β} {l : List (κ × β)} :
    lookupA k l = some v → (k, v) ∈ l := by
  induction l with
  | nil => simp [lookupA]
  | cons p rest ih =>
    obtain ⟨k', v'⟩ := p
    by_cases h : k' = k
    · subst h; simp [lookupA]; intro he; exact Or.inl he.symm
    · simp only [lookupA, if_neg h, List.mem_cons]
      intro hl; exact Or.inr (ih hl)

theorem lookupA_of_mem {k : κ} {v : β} {l : List (κ × β)}
    (hnd : (keysA l).Nodup) (hm : (k, v) ∈ l) : lookupA k l = some v := by
  induction l with
  | nil => simp at hm
  | cons p rest ih =>
    obtain ⟨k', v'⟩ := p
    simp only [keysA, List.map_cons, List.nodup_cons] at hnd
    rcases List.mem_cons.mp hm with he | hm'
    · cases he
      simp [lookupA]
    · have hk : k' ≠ k := by
        rintro rfl
        exact hnd.1 (mem_keysA_iff.mpr ⟨v, hm'⟩)
      simp only [lookupA, if_neg hk]
      exact ih hnd.2 hm'

theorem lookupA_dictInsert_self {k : κ} {v : β} {l : List (κ × β)} :
    lookupA k (dictInsert k v l) = some v := by
  induction l with
  | nil => simp [dictInsert, lookupA]
  | cons p rest ih =>
    obtain ⟨k', v'⟩ := p
    by_cases h : k' = k
    · subst h; simp [dictInsert, lookupA]
    · simp [dictInsert, if_neg h, lookupA, h, ih]

theorem lookupA_dictInsert_ne {k k' : κ} {v : β} {l : List (κ × β)}
    (h : k' ≠ k) : lookupA k' (dictInsert k v l) = lookupA k' l := by
  have hk : ¬ (k = k') := fun he => h he.symm
  induction l with
  | nil => simp [dictInsert, lookupA, hk]
  | cons p rest ih =>
    obtain ⟨k₀, v₀⟩ := p
    by_cases h0 : k₀ = k
    · subst h0
      simp [dictInsert, lookupA, hk]
    · by_cases h1 : k₀ = k'
      · subst h1
        simp [dictInsert, lookupA, h0]
      · simp [dictInsert, lookupA, h0, h1, ih]

theorem mem_keysA_dictInsert {k k' : κ} {v : β} {l : List (κ × β)} :
    k' ∈ keysA (dictInsert k v l) ↔ k' = k ∨ k' ∈ keysA l := by
  induction l with
  | nil => simp [dictInsert, keysA, eq_comm]
  | cons p rest ih =>
    obtain ⟨k₀, v₀⟩ := p
    by_cases h0 : k₀ = k
    · rw [show dictInsert k v ((k₀, v₀) :: rest) = (k, v) :: rest by
        simp [dictInsert, h0]]
      simp only [keysA, List.map_cons, List.mem_cons, h0]
      tauto
    · simp only [dictInsert, if_neg h0, keysA, List.map_cons, List.mem_cons] at ih ⊢
      rw [ih]; tauto

theorem nodup_keysA_dictInsert {k : κ} {v : β} {l : List (κ × β)}
    (hnd : (keysA l).Nodup) : (keysA (dictInsert k v l)).Nodup := by
  induction l with
  | nil => simp [dictInsert, keysA]
  | cons p rest ih =>
    obtain ⟨k₀, v₀⟩ := p
    simp only [keysA, List.map_cons, List.nodup_cons] at hnd
    by_cases h0 : k₀ = k
    · rw [show dictInsert k v ((k₀, v₀) :: rest) = (k, v) :: rest by
        simp [dictInsert, h0]]
      simp only [keysA, List.map_cons, List.nodup_cons]
      rw [← h0]
      exact hnd
    · simp only [dictInsert, if_neg h0, keysA, List.map_cons, List.nodup_cons]
      refine ⟨fun hmem => ?_, ih hnd.2⟩
      rcases mem_keysA_dictInsert.mp hmem with rfl | hmem'
      · exact h0 rfl
      · exact hnd.1 hmem'

theorem mem_dictInsert_self {k : κ} {v : β} {l : List (κ × β)} :
    (k, v) ∈ dictInsert k v l := by
  induction l with
  | nil => simp [dictInsert]
  | cons p rest ih =>
    obtain ⟨k₀, v₀⟩ := p
    by_cases h0 : k₀ = k
    · subst h0; simp [dictInsert]
    · simp only [dictInsert, if_neg h0, List.mem_cons]
      exact Or.inr ih

theorem dictInsert_fresh {k : κ} {v : β} {l : List (κ × β)}
    (h : ¬ k ∈ keysA l) : dictInsert k v l = l ++ [(k, v)] := by
  induction l with
  | nil => simp [dictInsert]
  | cons p rest ih =>
    obtain ⟨k₀, v₀⟩ := p
    simp only [keysA, List.map_cons, List.mem_cons, not_or] at h
    have hne : ¬ (k₀ = k) := fun he => h.1 he.symm
    simp only [dictInsert, if_neg hne, List.cons_append]
    rw [ih (by simpa [keysA] using h.2)]

theorem lookupA_dictErase_ne {k k' : κ} {l : List (κ × β)}
    (h : k' ≠ k) : lookupA k' (dictErase k l) = lookupA k' l := by
  have hk : ¬ (k = k') := fun he => h he.symm
  induction l with
  | nil => simp [dictErase]
  | cons p rest ih =>
    obtain ⟨k₀, v₀⟩ := p
    by_cases h0 : k₀ = k
    · subst h0
      simp [dictErase, lookupA, hk]
    · by_cases h1 : k₀ = k'
      · subst h1
        simp [dictErase, lookupA, h0]
      · simp [dictErase, lookupA, h0, h1, ih]

theorem lookupA_dictErase_self {k : κ} {l : List (κ × β)}
    (hnd : (keysA l).Nodup) : lookupA k (dictErase k l) = none := by
  induction l with
  | nil => simp [dictErase, lookupA]
  | cons p rest ih =>
    obtain ⟨k₀, v₀⟩ := p
    simp only [keysA, List.map_cons, List.nodup_cons] at hnd
    by_cases h0 : k₀ = k
    · subst h0
      simp only [dictErase, if_pos rfl]
      rw [lookupA_eq_none_iff]
      exact hnd.1
    · simp only [dictErase, if_neg h0, lookupA, if_neg h0]
      exact ih hnd.2

theorem mem_keysA_dictErase_sub {k k' : κ} {l : List (κ × β)} :
    k' ∈ keysA (dictErase k l) → k' ∈ keysA l := by
  induction l with
  | nil => simp [dictErase]
  | cons p rest ih =>
    obtain ⟨k₀, v₀⟩ := p
    by_cases h0 : k₀ = k
    · subst h0
      simp only [dictErase, if_pos rfl, keysA, List.map_cons, List.mem_cons]
      intro hm; exact Or.inr hm
    · simp only [dictErase, if_neg h0, keysA, List.map_cons, List.mem_cons]
      rintro (rfl | hm)
      · exact Or.inl rfl
      · exact Or.inr (ih hm)

theorem nodup_keysA_dictErase {k : κ} {l : List (κ × β)}
    (hnd : (keysA l).Nodup) : (keysA (dictErase k l)).Nodup := by
  induction l with
  | nil => simp [dictErase, keysA]
  | cons p rest ih =>
    obtain ⟨k₀, v₀⟩ := p
    simp only [keysA, List.map_cons, List.nodup_cons] at hnd
    by_cases h0 : k₀ = k
    · subst h0; simp only [dictErase, if_pos rfl]; exact hnd.2
    · simp only [dictErase, if_neg h0, keysA, List.map_cons, List.nodup_cons]
      exact ⟨fun hm => hnd.1 (mem_keysA_dictErase_sub hm), ih hnd.2⟩

theorem mem_keysA_dictErase {k k' : κ} {l : List (κ × β)}
    (hnd : (keysA l).Nodup) :
    k' ∈ keysA (dictErase k l) ↔ k' ≠ k ∧ k' ∈ keysA l := by
  constructor
  · intro hm
    refine ⟨?_, mem_keysA_dictErase_sub hm⟩
    rintro rfl
    have := lookupA_dictErase_self (k := k') (l := l) hnd
    rw [lookupA_eq_none_iff] at this
    exact this hm
  · rintro ⟨hne, hm⟩
    rw [← lookupA_isSome_iff] at hm ⊢
    rw [lookupA_dictErase_ne hne]
    exact hm

end DictLemmas

section SetLemmas

variable {α : Type} [DecidableEq α]

theorem mem_setAdd {x y : α} {s : List α} :
    x ∈ setAdd y s ↔ x = y ∨ x ∈ s := by
  unfold setAdd
  by_cases h : y ∈ s
  · simp only [if_pos h]
    constructor
    · exact Or.inr
    · rintro (rfl | hm)
      · exact h
      · exact hm
  · simp [if_neg h, or_comm]

theorem nodup_setAdd {y : α} {s : List α} (hnd : s.Nodup) :
    (setAdd y s).Nodup := by
  unfold setAdd
  by_cases h : y ∈ s
  · simpa [if_pos h]
  · simp only [if_neg h]
    exact List.Nodup.append hnd (List.nodup_singleton y)
      (by simpa [List.disjoint_singleton] using h)

theorem mem_setDiscard {x y : α} {s : List α} :
    x ∈ setDiscard y s ↔ x ∈ s ∧ x ≠ y := by
  simp [setDiscard, List.mem_filter]

theorem nodup_setDiscard {y : α} {s : List α} (hnd : s.Nodup) :
    (setDiscard y s).Nodup :=
  List.Nodup.filter _ hnd

theorem setDiscard_eq_nil_iff {y : α} {s : List α} :
    setDiscard y s = [] ↔ ∀ x ∈ s, x = y := by
  simp [setDiscard, List.filter_eq_nil_iff]

end SetLemmas

section SortLemmas

theorem mem_insertionSort {α : Type} (r : α → α → Prop) [DecidableRel r]
    {x : α} {l : List α} : x ∈ l.insertionSort r ↔ x ∈ l :=
  (List.perm_insertionSort r l).mem_iff

theorem keysA_insertionSort_nodup {κ β : Type} (r : κ × β → κ × β → Prop)
    [DecidableRel r] {l : List (κ × β)} (hnd : (keysA l).Nodup) :
    (keysA (l.insertionSort r)).Nodup := by
  have hp : List.Perm (keysA (l.insertionSort r)) (keysA l) :=
    (List.perm_insertionSort r l).map Prod.fst
  exact hp.nodup_iff.mpr hnd

end SortLemmas

/-! # Claim C2 -/

/-- C2, counterexample.  Build a content with a `child` frame at seq 1
and a `reference` frame at seq 2, then `move_frame(1, 2)` (which swaps
them).  The type index still lists seq 1 under `"child"`, but the frame
now stored at seq 1 has type `"reference"` — the frame-type secondary
index was not rewritten and no longer matches the primary map, so the
claim that both secondary indices contain exactly the sequence numbers
present in `frames_by_seq` (per type / per reference) is false. -/
theorem C2_counterexample_stale_type_index :
    (match (do
        let (_, c1) ← (Content.init : Content Workable).add_frame "a" "d" "child" (some "u1") false []
        let (_, c2) ← c1.add_frame "b" "d" "reference" (some "u2") false []
        c2.move_frame 1 2 : Except PyErr (Content Workable)) with
      | .ok c3 => some (lookupA "child" c3.frames_by_type,
          (lookupA 1 c3.frames_by_seq).map WorkableFrame.frame_type)
      | .error _ => none) =
    some (some [1], some "reference") := by
  rfl

/-- C2 (amended): `move_frame` never touches the frame-type secondary
index — on every successful call the `frames_by_type` mapping is exactly
what it was before, so it is not rewritten to match the primary map and
can go stale (only the referenced-id index is patched during the
rebuild). -/
theorem C2_move_frame_leaves_type_index_unchanged {α : Type}
    (c c' : Content α) (from_seq to_seq : Int)
    (h : c.move_frame from_seq to_seq = .ok c') :
    c'.frames_by_type = c.frames_by_type := by
  unfold Content.move_frame at h
  split at h
  · cases h
  · split at h
    · cases h
    · split at h
      · cases h; rfl
      · repeat' split at h
        all_goals cases h
        all_goals rfl

/-- C2, witness for the amended theorem: a successful concrete
`move_frame` call on which the type index is (observably) unchanged. -/
theorem C2_witness :
    cMoveWitness.move_frame 1 2 = .ok cMoveWitnessAfter ∧
    cMoveWitnessAfter.frames_by_type = cMoveWitness.frames_by_type :=
  ⟨by rfl, C2_move_frame_leaves_type_index_unchanged cMoveWitness cMoveWitnessAfter 1 2 (by rfl)⟩

/-! # Claim C10 -/

/-- C10: `manager.py` imports `SimpleWorkable` and `ComplexWorkable`
from the workable module, where no such names are defined, so the
registry module fails to load and every registry operation
(`create_simple`, `create_complex`, `delete`, `build_parent_map`,
`get_all_roots`) fails with the import error for every input, before
doing any work. -/
theorem C10_manager_module_never_loads :
    managerModuleLoads = false ∧
    ("SimpleWorkable" ∈ managerWorkableImports ∧
      ¬ "SimpleWorkable" ∈ workableModuleDefs) ∧
    ("ComplexWorkable" ∈ managerWorkableImports ∧
      ¬ "ComplexWorkable" ∈ workableModuleDefs) ∧
    (∀ (m : WorkableManager) (fresh name d cs ct : String),
      m.create_simple_shipped fresh name d cs ct = .error .importError) ∧
    (∀ (m : WorkableManager) (fresh name d : String),
      m.create_complex_shipped fresh name d = .error .importError) ∧
    (∀ (m : WorkableManager) (u : String),
      m.delete_shipped u = .error .importError) ∧
    (∀ m : WorkableManager, m.build_parent_map_shipped = .error .importError) ∧
    (∀ m : WorkableManager, m.get_all_roots_shipped = .error .importError) := by
  refine ⟨by rfl, ⟨by simp [managerWorkableImports], by simp [workableModuleDefs]⟩,
    ⟨by simp [managerWorkableImports], by simp [workableModuleDefs]⟩,
    fun m fresh name d cs ct => by rfl,
    fun m fresh name d => by rfl,
    fun m u => by rfl,
    fun m => by rfl,
    fun m => by rfl⟩

/-! # Claim C7 -/

/-- C7: the claimed behaviour of `delete` (drop the unit, strip every
`child` frame referencing it) is what the code's own docstring and test
suite demand, but as shipped `delete` cannot run at all: the registry
module fails at its import line, so `delete` fails with the import error
on every registry state and every id — including the scenario of a
composite parent holding the deleted child. -/
theorem C7_delete_unreachable_as_shipped :
    (∀ (m : WorkableManager) (u : String),
      m.delete_shipped u = .error .importError) ∧
    managerModuleLoads = false :=
  ⟨fun m u => by rfl, by rfl⟩

/-! # Claim C6 -/

/-- C6, counterexample.  Force two `create_simple` calls to generate the
identical id `"id1"`: the second call raises `WorkableError` instead of
retrying with a regenerated id, and the registry still holds exactly one
unit — the claim that the call succeeds and both units end up registered
is false.  (As shipped the constructor is not even importable; this runs
the registry logic against the spec-modelled constructor.) -/
theorem C6_counterexample_no_retry :
    (match (WorkableManager.init).create_simple "id1" "n1" "d" "x" "code" with
      | .ok (_, m1) =>
          some ((m1.create_simple "id1" "n2" "d" "y" "code").isOk,
            m1.get_all_workables.length)
      | .error _ => none) = some (false, 1) := by
  rfl

/-- C6 (amended): when the constructed unit's id collides with a
registered id, `create_simple` / `create_complex` raise `WorkableError`
and register nothing; there is no regenerate-and-retry, so forcing two
identical ids leaves only the first unit registered. -/
theorem C6_create_raises_on_collision (m : WorkableManager)
    (fresh name logic_description content content_type : String)
    (hname : name ≠ "") (hcol : fresh ∈ keysA m.workables) :
    m.create_simple fresh name logic_description content content_type =
      .error .workableError ∧
    m.create_complex fresh name logic_description = .error .workableError := by
  have hsome : (lookupA fresh m.workables).isSome := lookupA_isSome_iff.mpr hcol
  constructor
  · have hu : (SimpleWorkable fresh name logic_description content content_type).uuid
        = fresh := rfl
    simp [WorkableManager.create_simple, hname, hu, hsome]
  · have hu : (ComplexWorkable fresh name logic_description).uuid = fresh := rfl
    simp [WorkableManager.create_complex, hname, hu, hsome]

/-- C6, witness: the amended collision behaviour at a concrete registry
holding `"id1"`. -/
theorem C6_witness :
    ("n1" : String) ≠ "" ∧ "id1" ∈ keysA (⟨[("id1",
      Workable.init "id1" "old" "d" true (some "x") "code")]⟩ : WorkableManager).workables ∧
    (⟨[("id1", Workable.init "id1" "old" "d" true (some "x") "code")]⟩ :
        WorkableManager).create_simple "id1" "n1" "d" "y" "code" =
      .error .workableError :=
  ⟨by decide, by simp [keysA], (C6_create_raises_on_collision _ "id1" "n1" "d" "y" "code"
    (by decide) (by simp [keysA])).1⟩

/-! # Evaluation lemmas for `add_frame` -/

/-- A successful `add_frame` call with a present reference, with the
resulting state spelled out. -/
theorem add_frame_ok_some {α : Type} (c : Content α) (n d ft uu : String)
    (il : Bool) (md : List (String × String)) (hn : n ≠ "") (hd : d ≠ "") :
    c.add_frame n d ft (some uu) il md = .ok (c.next_seq, { c with
      frames_by_seq := dictInsert c.next_seq
        ⟨n, d, c.next_seq, (if il then "local" else ft), some uu, md⟩ c.frames_by_seq
      frames_by_uuid :=
        if pyTruthy (some uu) then
          dictInsert uu
            (setAdd c.next_seq ((lookupA uu c.frames_by_uuid).getD []))
            c.frames_by_uuid
        else c.frames_by_uuid
      frames_by_type := dictInsert (if il then "local" else ft)
        (setAdd c.next_seq
          ((lookupA (if il then "local" else ft) c.frames_by_type).getD []))
        c.frames_by_type
      next_seq := c.next_seq + 1 }) := by
  unfold Content.add_frame
  rw [if_neg (by rintro (h | h); exacts [hn h, hd h]),
    if_neg (by rintro ⟨h1, _⟩; cases h1)]

/-! # Claim C4 -/

/-- C4, counterexample.  A fresh composite `w0` and atomic `u0`:
`w0.add_local(u0)` succeeds, but afterwards the Content's local cache
does not hold `u0` (`get_workable` returns `None`) and `validate`
reports the freshly added local frame (seq 1) as an orphan — refuting
both the cache clause and the no-orphan clause of the claim. -/
theorem C4_counterexample_orphan_after_add_local :
    (match (Workable.init "w0" "P" "desc" false none "code").add_local
        (Workable.init "u0" "L" "d" true (some "x") "text") with
      | .ok w' => some ((w'.content.get_workable "u0").isSome, w'.content.validate)
      | .error _ => none) = some (false, (false, [1], [])) := by
  rfl

/-- C4 (amended): `Workable.add_local(u)` rejects a composite `u`, and
on an atomic `u` it caches `u` only in the unit's own
`local_references` and records the `local` frame through
`Content.add_frame`, never `Content.add_local_workable`: afterwards the
Content's local cache is untouched (`get_workable(u.id)` still misses)
and `validate()` reports the new local frame as an orphan. -/
theorem C4_add_local_bypasses_content_cache (w u : Workable)
    (hatom : u.is_atom_flag = true) (hname : u.name ≠ "")
    (hdesc : u.logic_description ≠ "") (hu : u.uuid ≠ "")
    (hnc : w.content.get_workable u.uuid = none) :
    (∃ w', w.add_local u = .ok w' ∧
      w'.content.get_workable u.uuid = none ∧
      u.uuid ∈ keysA w'.local_references ∧
      w.content.next_seq ∈ (w'.content.validate).2.1) ∧
    (∀ v : Workable, v.is_atom_flag = false →
      w.add_local v = .error .workableError) := by
  constructor
  · have hAF := add_frame_ok_some w.content u.name u.logic_description "local"
      u.uuid true [] hname hdesc
    refine ⟨Workable.mk { w.core with
        content := { w.content with
          frames_by_seq := dictInsert w.content.next_seq
            ⟨u.name, u.logic_description, w.content.next_seq, "local", some u.uuid, []⟩
            w.content.frames_by_seq
          frames_by_uuid :=
            if pyTruthy (some u.uuid) then
              dictInsert u.uuid
                (setAdd w.content.next_seq ((lookupA u.uuid w.content.frames_by_uuid).getD []))
                w.content.frames_by_uuid
            else w.content.frames_by_uuid
          frames_by_type := dictInsert "local"
            (setAdd w.content.next_seq ((lookupA "local" w.content.frames_by_type).getD []))
            w.content.frames_by_type
          next_seq := w.content.next_seq + 1 }
        local_references := dictInsert u.uuid
          (Workable.mk { u.core with is_local := true }) w.local_references },
      ?_, ?_, ?_, ?_⟩
    · unfold Workable.add_local
      rw [if_neg (by simp [Workable.is_atom, hatom]), hAF]
      rfl
    · show lookupA u.uuid w.content.local_workables_cache = none
      exact hnc
    · show u.uuid ∈ keysA (dictInsert u.uuid _ w.local_references)
      exact mem_keysA_dictInsert.mpr (Or.inl rfl)
    · have hcachemiss : ¬ u.uuid ∈ keysA w.content.local_workables_cache := by
        rw [← lookupA_eq_none_iff]
        exact hnc
      refine List.mem_map.mpr ⟨(w.content.next_seq,
        ⟨u.name, u.logic_description, w.content.next_seq, "local", some u.uuid, []⟩),
        List.mem_filter.mpr ⟨mem_dictInsert_self, ?_⟩, rfl⟩
      simp only [pyTruthy, WorkableFrame.get_reference_uuid, WorkableFrame.is_local,
        Workable.content, Workable.core, decide_eq_true_eq]
      refine ⟨by simp [hu], by simp, ?_⟩
      exact hcachemiss
  · intro v hv
    unfold Workable.add_local
    rw [if_pos (by simp [Workable.is_atom, hv])]

/-- C4, witness: the amended behaviour at the concrete pair used in the
counterexample. -/
theorem C4_witness :
    ((Workable.init "u0" "L" "d" true (some "x") "text").is_atom_flag = true ∧
      (Workable.init "w0" "P" "desc" false none "code").content.get_workable "u0" = none) ∧
    ((∃ w', (Workable.init "w0" "P" "desc" false none "code").add_local
        (Workable.init "u0" "L" "d" true (some "x") "text") = .ok w' ∧
      w'.content.get_workable "u0" = none ∧
      "u0" ∈ keysA w'.local_references ∧
      (Workable.init "w0" "P" "desc" false none "code").content.next_seq ∈
        (w'.content.validate).2.1) ∧
    (∀ v : Workable, v.is_atom_flag = false →
      (Workable.init "w0" "P" "desc" false none "code").add_local v =
        .error .workableError)) :=
  ⟨⟨by rfl, by rfl⟩,
    C4_add_local_bypasses_content_cache
      (Workable.init "w0" "P" "desc" false none "code")
      (Workable.init "u0" "L" "d" true (some "x") "text")
      (by rfl) (by decide) (by decide) (by decide) (by rfl)⟩

/-! # Claim C1 -/

/-- A successful `Workable.add_local` call, with the resulting unit
spelled out. -/
theorem add_local_ok (w l : Workable) (hl : l.is_atom_flag = true)
    (hn : l.name ≠ "") (hd : l.logic_description ≠ "") :
    w.add_local l = .ok (.mk { w.core with
      content := { w.content with
        frames_by_seq := dictInsert w.content.next_seq
          ⟨l.name, l.logic_description, w.content.next_seq, "local", some l.uuid, []⟩
          w.content.frames_by_seq
        frames_by_uuid :=
          if pyTruthy (some l.uuid) then
            dictInsert l.uuid
              (setAdd w.content.next_seq ((lookupA l.uuid w.content.frames_by_uuid).getD []))
              w.content.frames_by_uuid
          else w.content.frames_by_uuid
        frames_by_type := dictInsert "local"
          (setAdd w.content.next_seq ((lookupA "local" w.content.frames_by_type).getD []))
          w.content.frames_by_type
        next_seq := w.content.next_seq + 1 }
      local_references := dictInsert l.uuid
        (.mk { l.core with is_local := true }) w.local_references }) := by
  unfold Workable.add_local
  rw [if_neg (by simp [Workable.is_atom, hl]),
    add_frame_ok_some w.content l.name l.logic_description "local" l.uuid true [] hn hd]
  rfl

/-- `find?` skips a prefix on which the predicate is false. -/
theorem find?_append_right {α : Type} (p : α → Bool) (l1 l2 : List α)
    (h : ∀ x ∈ l1, p x = false) : (l1 ++ l2).find? p = l2.find? p := by
  induction l1 with
  | nil => simp
  | cons a t ih =>
    rw [List.cons_append, List.find?_cons_of_neg _ (by simp [h a (by simp)]),
      ih (fun x hx => h x (by simp [hx]))]

/-- C1, counterexample.  Two concrete failures of the claim as stated:
(1) an atomic unit that carries payload `"x"` but also has a cached
local marked as conversion-produced (obtained through the public API by
converting another unit and `add_local`-ing its extracted local): the
round trip succeeds but returns the stale marked local's payload `"y"`,
not `"x"`; (2) an atomic unit with payload `"x"` and an empty logic
description: `make_complex` raises `ContentError` (the frame wrapping
the payload fails validation), so the round trip yields no unit at
all. -/
theorem C1_counterexample_roundtrip_fails :
    ((match (do
        let u0c ← (Workable.init "a0" "n" "d" true (some "y") "text").make_complex "lu"
        let l0 ← (match u0c.get_locals with
          | some [l] => Except.ok l
          | _ => Except.error PyErr.keyError)
        let w1 ← (Workable.init "w0" "nw" "dw" true (some "x") "text").add_local l0
        let w1c ← w1.make_complex "f2"
        w1c.make_simple : Except PyErr Workable) with
      | .ok wf => some (wf.uuid, wf.content.content)
      | .error _ => none) = some ("w0", "y")) ∧
    (Workable.init "u0" "n" "" true (some "x") "text").make_complex "u1" =
      .error .contentError := by
  constructor
  · rfl
  · rfl

/-- A successful `make_simple` call on a composite unit with no child
frames and a cached conversion-marked local, with the result spelled
out. -/
theorem make_simple_ok_marked (w : Workable) (u : String) (cw : Workable)
    (hflag : w.is_atom_flag = false)
    (hchild : w.content.get_frames_by_type "child" = some [])
    (hfind : w.local_references.find? (fun p => p.2.is_converted_content) =
      some (u, cw)) :
    w.make_simple = .ok (.mk { w.core with
      content := Content.init cw.content.content_type cw.content.content
      is_atom_flag := true
      local_references := []
      child_references := none }) := by
  unfold Workable.make_simple
  rw [if_neg (by simp [Workable.is_atom, hflag]), hchild]
  simp only []
  rw [hfind]
  rfl

/-- C1 (amended): for an atomic unit `U` with a nonempty payload,
`make_complex(); make_simple()` returns a unit with `U`'s id, `U`'s
payload (content string and content type) and no cached locals —
provided `U`'s logic description is nonempty (otherwise `make_complex`
raises `ContentError` while wrapping the payload), no cached local of
`U` is already marked as conversion-produced (otherwise `make_simple`
extracts that stale local's payload instead), and the freshly generated
conversion uuid does not collide with a cached local's id. -/
theorem C1_roundtrip_preserves_id_and_payload (w : Workable) (fresh : String)
    (hatom : w.is_atom_flag = true)
    (hpayload : w.content.content ≠ "")
    (hdesc : w.logic_description ≠ "")
    (hnomark : ∀ p ∈ w.local_references, p.2.is_converted_content = false)
    (hfresh : ¬ fresh ∈ keysA w.local_references) :
    ∃ w', (do
        let c ← w.make_complex fresh
        c.make_simple : Except PyErr Workable) = .ok w' ∧
      w'.uuid = w.uuid ∧
      w'.content.content = w.content.content ∧
      w'.content.content_type = w.content.content_type ∧
      w'.content.local_workables_cache = [] ∧
      w'.local_references = [] ∧
      w'.is_atom_flag = true := by
  have hnm : (w.name ++ "_content") ≠ "" := by
    intro h
    have hlen := congrArg String.length h
    rw [String.length_append] at hlen
    simp at hlen
    exact absurd hlen.2 (by decide)
  have hpt : (true = true) ∧ (pyTruthy (some w.content.content) = true) :=
    ⟨rfl, by simp [pyTruthy, hpayload]⟩
  have hlocal : Workable.init fresh (w.name ++ "_content") w.logic_description true
      (some w.content.content) w.content.content_type =
      Workable.mk ⟨fresh, w.name ++ "_content", w.logic_description, true,
        Content.init w.content.content_type w.content.content, none, [], false, false⟩ := by
    unfold Workable.init
    rw [if_pos hpt]
    rfl
  -- the marked wrapper that `add_local` stores
  have hMC : w.make_complex fresh = .ok (Workable.mk { w.core with
      content := ⟨"text", "",
        [(1, ⟨w.name ++ "_content", w.logic_description, 1, "local", some fresh, []⟩)],
        (if pyTruthy (some fresh) then [(fresh, [1])] else []),
        [("local", [1])], 2, []⟩
      local_references := dictInsert fresh
        (Workable.mk ⟨fresh, w.name ++ "_content", w.logic_description, true,
          Content.init w.content.content_type w.content.content, none, [], true, true⟩)
        w.local_references
      is_atom_flag := false
      child_references := some [] }) := by
    unfold Workable.make_complex
    rw [if_neg (show ¬ ¬ (w.is_atom = true) from not_not_intro hatom)]
    simp only []
    rw [if_pos hpayload]
    rw [hlocal]
    rw [add_local_ok (Workable.mk { w.core with content := (Content.init : Content Workable) })
      (Workable.mk ⟨fresh, w.name ++ "_content", w.logic_description, true,
        Content.init w.content.content_type w.content.content, none, [], true, false⟩)
      rfl hnm hdesc]
    rfl
  have hfind : (dictInsert fresh
      (Workable.mk ⟨fresh, w.name ++ "_content", w.logic_description, true,
        Content.init w.content.content_type w.content.content, none, [], true, true⟩)
      w.local_references).find?
        (fun p => p.2.is_converted_content) =
      some (fresh, Workable.mk ⟨fresh, w.name ++ "_content", w.logic_description, true,
        Content.init w.content.content_type w.content.content, none, [], true, true⟩) := by
    rw [dictInsert_fresh hfresh,
      find?_append_right _ _ _ (fun x hx => hnomark x hx)]
    rfl
  have hms := make_simple_ok_marked (Workable.mk { w.core with
      content := ⟨"text", "",
        [(1, ⟨w.name ++ "_content", w.logic_description, 1, "local", some fresh, []⟩)],
        (if pyTruthy (some fresh) then [(fresh, [1])] else []),
        [("local", [1])], 2, []⟩
      local_references := dictInsert fresh
        (Workable.mk ⟨fresh, w.name ++ "_content", w.logic_description, true,
          Content.init w.content.content_type w.content.content, none, [], true, true⟩)
        w.local_references
      is_atom_flag := false
      child_references := some [] }) fresh
    (Workable.mk ⟨fresh, w.name ++ "_content", w.logic_description, true,
      Content.init w.content.content_type w.content.content, none, [], true, true⟩)
    rfl rfl hfind
  refine ⟨Workable.mk { w.core with
      content := Content.init w.content.content_type w.content.content
      is_atom_flag := true
      local_references := []
      child_references := none }, ?_, rfl, rfl, rfl, rfl, rfl, rfl⟩
  show (w.make_complex fresh).bind Workable.make_simple = _
  rw [hMC]
  exact hms

/-- C1, witness: the amended round trip at a concrete atomic unit with
payload `("text", "x")`, nonempty description and no cached locals. -/
theorem C1_witness :
    ((Workable.init "u0" "n" "d" true (some "x") "text").is_atom_flag = true ∧
      (Workable.init "u0" "n" "d" true (some "x") "text").content.content ≠ "" ∧
      (Workable.init "u0" "n" "d" true (some "x") "text").logic_description ≠ "") ∧
    (∃ w', (do
        let c ← (Workable.init "u0" "n" "d" true (some "x") "text").make_complex "f1"
        c.make_simple : Except PyErr Workable) = .ok w' ∧
      w'.uuid = (Workable.init "u0" "n" "d" true (some "x") "text").uuid ∧
      w'.content.content = (Workable.init "u0" "n" "d" true (some "x") "text").content.content ∧
      w'.content.content_type =
        (Workable.init "u0" "n" "d" true (some "x") "text").content.content_type ∧
      w'.content.local_workables_cache = [] ∧
      w'.local_references = [] ∧
      w'.is_atom_flag = true) :=
  ⟨⟨by rfl, by decide, by decide⟩,
    C1_roundtrip_preserves_id_and_payload
      (Workable.init "u0" "n" "d" true (some "x") "text") "f1"
      (by rfl) (by decide) (by decide)
      (by intro p hp; simp [Workable.init, Workable.local_references, Workable.core] at hp)
      (by simp [Workable.init, Workable.local_references, Workable.core, keysA])⟩

/-! # Claim C5 -/

/-- A `mapM` over `Option` succeeds when every element does. -/
theorem mapM_some {α β : Type} (f : α → Option β) (l : List α)
    (h : ∀ x ∈ l, (f x).isSome) : ∃ ys, l.mapM f = some ys := by
  induction l with
  | nil => exact ⟨[], rfl⟩
  | cons a t ih =>
    obtain ⟨b, hb⟩ := Option.isSome_iff_exists.mp (h a (by simp))
    obtain ⟨ys, hys⟩ := ih (fun x hx => h x (by simp [hx]))
    exact ⟨b :: ys, by rw [List.mapM_cons, hb, hys]; rfl⟩

/-- With a sound type index, `get_frames_by_type` always returns a
list (never raises `KeyError`). -/
theorem get_frames_by_type_total {α : Type} (c : Content α) (ty : String)
    (hs : typeIndexSound c) : ∃ l, c.get_frames_by_type ty = some l := by
  unfold Content.get_frames_by_type
  cases hidx : lookupA ty c.frames_by_type with
  | none => exact ⟨[], rfl⟩
  | some seqs => exact mapM_some _ seqs (hs ty seqs hidx)

/-- `make_simple` on a composite unit with a nonempty `child` frame
list raises `ConversionError`. -/
theorem make_simple_err_child (w : Workable) (lc : List WorkableFrame)
    (hflag : w.is_atom_flag = false)
    (hchild : w.content.get_frames_by_type "child" = some lc) (hne : lc ≠ []) :
    w.make_simple = .error .conversionError := by
  unfold Workable.make_simple
  rw [if_neg (by simp [Workable.is_atom, hflag]), hchild]
  simp only []
  rw [if_pos hne]

/-- The residual behaviour of `make_simple` when no child frames exist
and no cached local carries the conversion marker: the single-local
path, spelled out. -/
theorem make_simple_eval_unmarked (w : Workable) (ll : List WorkableFrame)
    (hflag : w.is_atom_flag = false)
    (hchild : w.content.get_frames_by_type "child" = some [])
    (hmark : w.local_references.find? (fun p => p.2.is_converted_content) = none)
    (hlocal : w.content.get_frames_by_type "local" = some ll) :
    w.make_simple = make_simple_unmarked_residual w ll := by
  unfold Workable.make_simple make_simple_unmarked_residual
  rw [if_neg (by simp [Workable.is_atom, hflag]), hchild]
  simp only []
  rw [hmark, hlocal]
  rfl

/-- C5 (amended): on a composite unit whose type index is sound,
`make_simple` succeeds exactly when no `child` frame is present and
either a conversion-marked local is cached in the unit's local-reference
map, or there is exactly one `local` frame, it carries a referenced id,
and that id resolves in the local-reference map; every failure raises
`ConversionError`.  (The claim's version — success whenever exactly one
local frame exists — omits the resolvability requirement.) -/
theorem C5_make_simple_success_iff (w : Workable)
    (hflag : w.is_atom_flag = false)
    (hsound : typeIndexSound w.content) :
    ((∃ w', w.make_simple = .ok w') ↔
      (w.content.get_frames_by_type "child" = some [] ∧
        ((∃ p ∈ w.local_references, p.2.is_converted_content = true) ∨
          (∃ f u cw, w.content.get_frames_by_type "local" = some [f] ∧
            f.get_reference_uuid = some u ∧
            lookupA u w.local_references = some cw)))) ∧
    (∀ e, w.make_simple = .error e → e = PyErr.conversionError) := by
  obtain ⟨lc, hlc⟩ := get_frames_by_type_total w.content "child" hsound
  obtain ⟨ll, hll⟩ := get_frames_by_type_total w.content "local" hsound
  by_cases hlcE : lc = []
  · subst hlcE
    cases hmark : w.local_references.find? (fun p => p.2.is_converted_content) with
    | some p =>
      obtain ⟨u, cw⟩ := p
      have hok := make_simple_ok_marked w u cw hflag hlc hmark
      constructor
      · constructor
        · intro _
          exact ⟨hlc, Or.inl ⟨(u, cw), List.mem_of_find?_eq_some hmark,
            by simpa using List.find?_some hmark⟩⟩
        · intro _
          exact ⟨_, hok⟩
      · intro e he
        rw [hok] at he
        cases he
    | none =>
      have heval := make_simple_eval_unmarked w ll hflag hlc hmark hll
      have hnomark : ∀ p ∈ w.local_references, ¬ p.2.is_converted_content = true :=
        fun p hp => by simpa using List.find?_eq_none.mp hmark p hp
      constructor
      · constructor
        · rintro ⟨w', hw'⟩
          refine ⟨hlc, Or.inr ?_⟩
          rw [heval] at hw'
          unfold make_simple_unmarked_residual at hw'
          match ll, hw' with
          | [f], hw' =>
            simp only [] at hw'
            cases hex : f.get_reference_uuid with
            | none => rw [hex] at hw'; cases hw'
            | some u =>
              rw [hex] at hw'
              simp only [] at hw'
              cases hlk : lookupA u w.local_references with
              | none => rw [hlk] at hw'; cases hw'
              | some cw => exact ⟨f, u, cw, hll, hex, hlk⟩
        · rintro ⟨_, hmarked | ⟨f, u, cw, hfl, hex, hlk⟩⟩
          · obtain ⟨p, hp, hpm⟩ := hmarked
            exact absurd hpm (hnomark p hp)
          · have hllf : ll = [f] := by
              rw [hll] at hfl
              exact Option.some.inj hfl
            subst hllf
            refine ⟨.mk { w.core with
              content := Content.init cw.content.content_type cw.content.content
              is_atom_flag := true
              local_references := []
              child_references := none }, ?_⟩
            rw [heval]
            unfold make_simple_unmarked_residual
            simp only []
            rw [hex]
            simp only []
            rw [hlk]
      · intro e he
        rw [heval] at he
        unfold make_simple_unmarked_residual at he
        match ll, he with
        | [], he => cases he; rfl
        | [f], he =>
          simp only [] at he
          cases hex : f.get_reference_uuid with
          | none => rw [hex] at he; cases he; rfl
          | some u =>
            rw [hex] at he
            simp only [] at he
            cases hlk : lookupA u w.local_references with
            | none => rw [hlk] at he; cases he; rfl
            | some cw => rw [hlk] at he; cases he
        | f1 :: f2 :: fs, he => cases he; rfl
  · have herr := make_simple_err_child w lc hflag hlc hlcE
    constructor
    · constructor
      · rintro ⟨w', hw'⟩
        rw [herr] at hw'
        cases hw'
      · rintro ⟨hce, _⟩
        rw [hlc] at hce
        exact absurd (Option.some.inj hce) hlcE
    · intro e he
      rw [herr] at he
      cases he
      rfl

/-- C5, counterexample.  `wC5` is composite, has no `child` frame and
exactly one `local` frame — by the claim `make_simple` should succeed —
yet it raises `ConversionError`, because the frame's referenced id
`"lu"` is not cached in the unit's local-reference map.  (The first
conjunct shows the content arises from a plain `add_frame` call on the
unit's fresh content.) -/
theorem C5_counterexample_unresolvable_single_local :
    (Workable.init "w0" "n" "d" false none "code").content.add_frame
      "ln" "ld" "local" (some "lu") false [] = .ok (1, cC5) ∧
    wC5.content.get_frames_by_type "child" = some [] ∧
    wC5.content.get_frames_by_type "local" =
      some [⟨"ln", "ld", 1, "local", some "lu", []⟩] ∧
    wC5.make_simple = .error .conversionError :=
  ⟨rfl, rfl, rfl, rfl⟩

/-- C5, witness: the amended success condition instantiated at the
concrete composite unit `wC5` (both sides of the equivalence are false
there). -/
theorem C5_witness :
    (wC5.is_atom_flag = false ∧ typeIndexSound wC5.content) ∧
    (((∃ w', wC5.make_simple = .ok w') ↔
      (wC5.content.get_frames_by_type "child" = some [] ∧
        ((∃ p ∈ wC5.local_references, p.2.is_converted_content = true) ∨
          (∃ f u cw, wC5.content.get_frames_by_type "local" = some [f] ∧
            f.get_reference_uuid = some u ∧
            lookupA u wC5.local_references = some cw)))) ∧
    (∀ e, wC5.make_simple = .error e → e = PyErr.conversionError)) :=
  ⟨⟨rfl, by
      intro ty ss h s hs
      simp only [wC5, cC5, Workable.content, Workable.core, lookupA] at h
      split at h
      · cases h
        simp at hs
        subst hs
        rfl
      · cases h⟩,
    C5_make_simple_success_iff wC5 rfl (by
      intro ty ss h s hs
      simp only [wC5, cC5, Workable.content, Workable.core, lookupA] at h
      split at h
      · cases h
        simp at hs
        subst hs
        rfl
      · cases h)⟩

/-! # Claim C9 -/

/-- C9, counterexample.  After two `add_frame` calls and
`move_frame(1, 5)` the type index still lists seq 2, which the move
vacated; `get_frames_by_type("reference")` subscripts
`frames_by_seq[2]` and raises `KeyError` (modelled `none`) — so the
lookup accessors are not total on states produced by `move_frame`. -/
theorem C9_counterexample_get_frames_by_type_raises :
    (match (do
        let (_, c1) ← (Content.init : Content Workable).add_frame "a" "d" "reference" (some "u1") false []
        let (_, c2) ← c1.add_frame "b" "d" "reference" (some "u2") false []
        c2.move_frame 1 5 : Except PyErr (Content Workable)) with
      | .ok c3 => some (c3.get_frames_by_type "reference")
      | .error _ => none) = some none := by
  rfl

/-- C9 (amended): `get_frame` is a plain `dict.get` and
`get_workable` a plain cache lookup — total by construction;
`get_main_frame` returns a frame whenever any frame exists; and
`get_frame_by_uuid` / `get_frames_by_type` return a list without
raising whenever the secondary indices only mention live sequence
numbers.  On states whose indices are stale — which `move_frame`
produces — `get_frames_by_type` can raise `KeyError`. -/
theorem C9_lookup_accessors_total {α : Type} (c : Content α)
    (hty : typeIndexSound c) (huu : uuidIndexSound c) :
    (∀ s, c.get_frame s = lookupA s c.frames_by_seq) ∧
    (∀ u, c.get_workable u = lookupA u c.local_workables_cache) ∧
    (c.frames_by_seq ≠ [] → (c.get_main_frame).isSome) ∧
    (∀ u ft, ∃ l, c.get_frame_by_uuid u ft = some l) ∧
    (∀ ty, ∃ l, c.get_frames_by_type ty = some l) := by
  refine ⟨fun s => rfl, fun u => rfl, ?_, ?_, fun ty => get_frames_by_type_total c ty hty⟩
  · intro hne
    unfold Content.get_main_frame
    cases hm : (keysA c.frames_by_seq).min? with
    | none =>
      have : keysA c.frames_by_seq = [] := List.min?_eq_none_iff.mp hm
      exact absurd (by simpa [keysA] using this) hne
    | some m =>
      have hmem : m ∈ keysA c.frames_by_seq :=
        List.min?_mem (fun a b => min_choice a b) hm
      simpa using lookupA_isSome_iff.mpr hmem
  · intro u ft
    unfold Content.get_frame_by_uuid
    cases hidx : lookupA u c.frames_by_uuid with
    | none => exact ⟨[], rfl⟩
    | some seqs =>
      obtain ⟨ys, hys⟩ := mapM_some (fun s => lookupA s c.frames_by_seq) seqs
        (huu u seqs hidx)
      simp only []
      rw [hys]
      cases ft with
      | none => exact ⟨ys, rfl⟩
      | some ftv => exact ⟨ys.filter (fun f => f.frame_type = ftv), rfl⟩

/-- C9, witness: the amended totality at a concrete one-frame content
with sound indices. -/
theorem C9_witness :
    (typeIndexSound cMoveWitness ∧ uuidIndexSound cMoveWitness) ∧
    ((∀ s, cMoveWitness.get_frame s = lookupA s cMoveWitness.frames_by_seq) ∧
    (∀ u, cMoveWitness.get_workable u = lookupA u cMoveWitness.local_workables_cache) ∧
    (cMoveWitness.frames_by_seq ≠ [] → (cMoveWitness.get_main_frame).isSome) ∧
    (∀ u ft, ∃ l, cMoveWitness.get_frame_by_uuid u ft = some l) ∧
    (∀ ty, ∃ l, cMoveWitness.get_frames_by_type ty = some l)) := by
  have hty : typeIndexSound cMoveWitness := by
    intro ty ss h s hs
    simp only [cMoveWitness, lookupA] at h
    split at h
    · cases h
      simp at hs
      subst hs
      rfl
    · cases h
  have huu : uuidIndexSound cMoveWitness := by
    intro u ss h s hs
    simp only [cMoveWitness, lookupA] at h
    split at h
    · cases h
      simp at hs
      subst hs
      rfl
    · cases h
  exact ⟨⟨hty, huu⟩, C9_lookup_accessors_total cMoveWitness hty huu⟩

/-! # Claim C8 -/

/-- In a list with duplicate-free keys, entries with equal keys are
equal. -/
theorem eq_of_mem_of_fst_eq {κ β : Type} {l : List (κ × β)}
    (h : (keysA l).Nodup) {p q : κ × β} (hp : p ∈ l) (hq : q ∈ l)
    (hfst : p.1 = q.1) : p = q := by
  induction l with
  | nil => simp at hp
  | cons x rest ih =>
    simp only [keysA, List.map_cons, List.nodup_cons] at h
    rcases List.mem_cons.mp hp with rfl | hp'
    · rcases List.mem_cons.mp hq with rfl | hq'
      · rfl
      · exact absurd (hfst ▸ (List.mem_map_of_mem Prod.fst hq')) h.1
    · rcases List.mem_cons.mp hq with rfl | hq'
      · exact absurd (hfst ▸ (List.mem_map_of_mem Prod.fst hp')) h.1
      · exact ih h.2 hp' hq'

/-- Replacing a frame's sequence number by itself is the identity. -/
theorem frame_eta (f : WorkableFrame) : { f with seq := f.seq } = f := rfl

/-- A frame other than the moved one is never renumbered onto the
target slot. -/
theorem moveShift_ne_to (a b s : Int) (hab : a ≠ b) (hs : s ≠ a) :
    Content.moveShift a b s ≠ b := by
  unfold Content.moveShift
  split_ifs <;> omega

/-- The renumbering is injective away from the moved frame. -/
theorem moveShift_inj (a b s s' : Int) (hab : a ≠ b) (hs : s ≠ a) (hs' : s' ≠ a)
    (h : Content.moveShift a b s = Content.moveShift a b s') : s = s' := by
  unfold Content.moveShift at h
  split_ifs at h <;> omega

/-- Undoing a move restores every untouched frame's sequence number. -/
theorem moveShift_roundtrip (a b s : Int) (hab : a ≠ b) (hs : s ≠ a) :
    Content.moveShift b a (Content.moveShift a b s) = s := by
  unfold Content.moveShift
  split_ifs <;> omega

/-- The primary-map component of `move_frame`'s rebuild loop is the
fold of `moveStepMap`. -/
theorem foldl_moveStep_fst (a b : Int) (items : List (Int × WorkableFrame)) :
    ∀ (nm : List (Int × WorkableFrame)) (fbu : List (String × List Int)),
    (items.foldl (Content.moveStep a b) (nm, fbu)).1 =
      items.foldl (Content.moveStepMap a b) nm := by
  induction items with
  | nil => intro nm fbu; rfl
  | cons it rest ih =>
    intro nm fbu
    obtain ⟨s, f⟩ := it
    rw [List.foldl_cons, List.foldl_cons]
    by_cases hs : s = a
    · rw [show Content.moveStep a b (nm, fbu) (s, f) = (nm, fbu) from by
        simp [Content.moveStep, hs]]
      rw [show Content.moveStepMap a b nm (s, f) = nm from by
        simp [Content.moveStepMap, hs]]
      exact ih nm fbu
    · have h1 : (Content.moveStep a b (nm, fbu) (s, f)).1 =
          Content.moveStepMap a b nm (s, f) := by
        simp [Content.moveStep, Content.moveStepMap, hs]
      calc (rest.foldl (Content.moveStep a b) (Content.moveStep a b (nm, fbu) (s, f))).1
          = rest.foldl (Content.moveStepMap a b)
              ((Content.moveStep a b (nm, fbu) (s, f)).1) := ih _ _
        _ = rest.foldl (Content.moveStepMap a b) (Content.moveStepMap a b nm (s, f)) := by
              rw [h1]

/-- The rebuild fold is an append of the renumbered entries whenever
the renumbered keys are fresh and duplicate-free. -/
theorem foldl_moveStepMap_eq (a b : Int) :
    ∀ (items : List (Int × WorkableFrame)) (acc : List (Int × WorkableFrame)),
    (∀ p ∈ items, p.1 ≠ a → ¬ Content.moveShift a b p.1 ∈ keysA acc) →
    ((items.filter (fun p => p.1 ≠ a)).map (fun p => Content.moveShift a b p.1)).Nodup →
    items.foldl (Content.moveStepMap a b) acc =
      acc ++ (items.filter (fun p => p.1 ≠ a)).map
        (fun p => (Content.moveShift a b p.1,
          { p.2 with seq := Content.moveShift a b p.1 })) := by
  intro items
  induction items with
  | nil => intro acc _ _; simp
  | cons it rest ih =>
    intro acc hfresh hnd
    obtain ⟨s, f⟩ := it
    by_cases hs : s = a
    · rw [List.foldl_cons,
        show Content.moveStepMap a b acc (s, f) = acc from by
          simp [Content.moveStepMap, hs],
        show ((s, f) :: rest).filter (fun p => decide (p.1 ≠ a)) =
          rest.filter (fun p => decide (p.1 ≠ a)) from by simp [hs]]
      refine ih acc (fun p hp hpa => hfresh p (by simp [hp]) hpa) ?_
      have : ((s, f) :: rest).filter (fun p => decide (p.1 ≠ a)) =
          rest.filter (fun p => decide (p.1 ≠ a)) := by simp [hs]
      rw [show (rest.filter (fun p => decide (p.1 ≠ a))).map
          (fun p => Content.moveShift a b p.1) =
          (((s, f) :: rest).filter (fun p => decide (p.1 ≠ a))).map
          (fun p => Content.moveShift a b p.1) from by rw [this]]
      exact hnd
    · have hfilt : ((s, f) :: rest).filter (fun p => decide (p.1 ≠ a)) =
          (s, f) :: rest.filter (fun p => decide (p.1 ≠ a)) := by simp [hs]
      rw [List.foldl_cons,
        show Content.moveStepMap a b acc (s, f) =
          dictInsert (Content.moveShift a b s)
            { f with seq := Content.moveShift a b s } acc from by
          simp [Content.moveStepMap, hs]]
      rw [dictInsert_fresh (hfresh (s, f) (by simp) hs)]
      simp only []
      rw [hfilt] at hnd
      simp only [List.map_cons, List.nodup_cons] at hnd
      have hacc' : ∀ p ∈ rest, p.1 ≠ a →
          ¬ Content.moveShift a b p.1 ∈ keysA (acc ++ [(Content.moveShift a b s,
            (⟨f.name, f.logic_description, Content.moveShift a b s, f.frame_type,
              f.exref, f.metadata⟩ : WorkableFrame))]) := by
        intro p hp hpa hmem
        rw [keysA, List.map_append] at hmem
        rcases List.mem_append.mp hmem with hmem1 | hmem2
        · exact hfresh p (by simp [hp]) hpa hmem1
        · simp at hmem2
          apply hnd.1
          rw [← hmem2]
          exact List.mem_map_of_mem _ (List.mem_filter.mpr ⟨hp, by simpa using hpa⟩)
      rw [ih (acc ++ [(Content.moveShift a b s,
          (⟨f.name, f.logic_description, Content.moveShift a b s, f.frame_type,
            f.exref, f.metadata⟩ : WorkableFrame))]) hacc' hnd.2]
      rw [hfilt, List.map_cons, List.append_assoc]
      rfl

/-- The rebuilt primary map of a `move_frame` call, as a plain append:
the renumbered untouched frames followed by the moved frame. -/
theorem move_result_eq_append {α : Type} (c : Content α) (a b : Int)
    (fa : WorkableFrame) (hnd : (keysA c.frames_by_seq).Nodup) (hab : ¬ a = b) :
    dictInsert b { fa with seq := b }
      ((c.frames_by_seq.insertionSort (fun p q => p.1 ≤ q.1)).foldl
        (Content.moveStepMap a b) []) =
    ((c.frames_by_seq.insertionSort (fun p q => p.1 ≤ q.1)).filter
        (fun p => p.1 ≠ a)).map
      (fun p => (Content.moveShift a b p.1,
        { p.2 with seq := Content.moveShift a b p.1 })) ++
      [(b, { fa with seq := b })] := by
  have hsnd : (keysA (c.frames_by_seq.insertionSort (fun p q => p.1 ≤ q.1))).Nodup :=
    keysA_insertionSort_nodup _ hnd
  have hlistnd : (c.frames_by_seq.insertionSort (fun p q => p.1 ≤ q.1)).Nodup :=
    List.Nodup.of_map Prod.fst hsnd
  have hfiltkeys : (keysA ((c.frames_by_seq.insertionSort (fun p q => p.1 ≤ q.1)).filter
      (fun p => p.1 ≠ a))).Nodup := by
    refine List.Nodup.sublist ?_ hsnd
    exact List.Sublist.map Prod.fst (List.filter_sublist _)
  have hmND : (((c.frames_by_seq.insertionSort (fun p q => p.1 ≤ q.1)).filter
      (fun p => p.1 ≠ a)).map (fun p => Content.moveShift a b p.1)).Nodup := by
    refine List.Nodup.map_on ?_ (List.Nodup.filter _ hlistnd)
    intro p hp q hq hshift
    have hpa : ¬ p.1 = a := by simpa using (List.mem_filter.mp hp).2
    have hqa : ¬ q.1 = a := by simpa using (List.mem_filter.mp hq).2
    exact eq_of_mem_of_fst_eq hfiltkeys hp hq
      (moveShift_inj a b p.1 q.1 hab hpa hqa hshift)
  rw [foldl_moveStepMap_eq a b _ [] (by simp [keysA]) hmND]
  rw [List.nil_append]
  apply dictInsert_fresh
  intro hmem
  rw [keysA] at hmem
  obtain ⟨p, hp, hpb⟩ := List.mem_map.mp hmem
  obtain ⟨⟨s, f⟩, hpf, heq⟩ := List.mem_map.mp hp
  have hsa : ¬ s = a := by simpa using (List.mem_filter.mp hpf).2
  apply moveShift_ne_to a b s hab hsa
  rw [← heq] at hpb
  simpa using hpb

/-- Membership in the rebuilt primary map of a `move_frame` call. -/
theorem mem_move_result_iff {α : Type} (c : Content α) (a b : Int)
    (fa : WorkableFrame) (hnd : (keysA c.frames_by_seq).Nodup) (hab : ¬ a = b)
    (t : Int) (g : WorkableFrame) :
    ((t, g) ∈ dictInsert b { fa with seq := b }
      ((c.frames_by_seq.insertionSort (fun p q => p.1 ≤ q.1)).foldl
        (Content.moveStepMap a b) [])) ↔
    ((t = b ∧ g = { fa with seq := b }) ∨
      ∃ s f, (s, f) ∈ c.frames_by_seq ∧ ¬ s = a ∧ t = Content.moveShift a b s ∧
        g = { f with seq := Content.moveShift a b s }) := by
  rw [move_result_eq_append c a b fa hnd hab, List.mem_append]
  constructor
  · rintro (hmap | hone)
    · obtain ⟨⟨s, f⟩, hpf, heq⟩ := List.mem_map.mp hmap
      have hsa : ¬ s = a := by simpa using (List.mem_filter.mp hpf).2
      have hsmem : (s, f) ∈ c.frames_by_seq :=
        (mem_insertionSort _).mp (List.mem_filter.mp hpf).1
      refine Or.inr ⟨s, f, hsmem, hsa, ?_, ?_⟩
      · exact (congrArg Prod.fst heq).symm
      · exact (congrArg Prod.snd heq).symm
    · simp only [List.mem_singleton, Prod.mk.injEq] at hone
      exact Or.inl hone
  · rintro (⟨rfl, rfl⟩ | ⟨s, f, hsmem, hsa, rfl, rfl⟩)
    · exact Or.inr (by simp)
    · refine Or.inl (List.mem_map.mpr ⟨(s, f), ?_, rfl⟩)
      exact List.mem_filter.mpr ⟨(mem_insertionSort _).mpr hsmem, by simpa using hsa⟩

/-- The rebuilt primary map of a `move_frame` call has duplicate-free
keys. -/
theorem nodup_move_result {α : Type} (c : Content α) (a b : Int)
    (fa : WorkableFrame) (hnd : (keysA c.frames_by_seq).Nodup) (hab : ¬ a = b) :
    (keysA (dictInsert b { fa with seq := b }
      ((c.frames_by_seq.insertionSort (fun p q => p.1 ≤ q.1)).foldl
        (Content.moveStepMap a b) []))).Nodup := by
  rw [move_result_eq_append c a b fa hnd hab, keysA, List.map_append]
  have hsnd : (keysA (c.frames_by_seq.insertionSort (fun p q => p.1 ≤ q.1))).Nodup :=
    keysA_insertionSort_nodup _ hnd
  have hlistnd : (c.frames_by_seq.insertionSort (fun p q => p.1 ≤ q.1)).Nodup :=
    List.Nodup.of_map Prod.fst hsnd
  have hfiltkeys : (keysA ((c.frames_by_seq.insertionSort (fun p q => p.1 ≤ q.1)).filter
      (fun p => p.1 ≠ a))).Nodup := by
    refine List.Nodup.sublist ?_ hsnd
    exact List.Sublist.map Prod.fst (List.filter_sublist _)
  refine List.Nodup.append ?_ (List.nodup_singleton b) ?_
  · rw [List.map_map]
    refine List.Nodup.map_on ?_ (List.Nodup.filter _ hlistnd)
    intro p hp q hq hshift
    have hpa : ¬ p.1 = a := by simpa using (List.mem_filter.mp hp).2
    have hqa : ¬ q.1 = a := by simpa using (List.mem_filter.mp hq).2
    exact eq_of_mem_of_fst_eq hfiltkeys hp hq
      (moveShift_inj a b p.1 q.1 hab hpa hqa hshift)
  · intro x hx hxb
    rw [List.map_map] at hx
    obtain ⟨⟨s, f⟩, hpf, heq⟩ := List.mem_map.mp hx
    have hsa : ¬ s = a := by simpa using (List.mem_filter.mp hpf).2
    have hxb' : x = b := by simpa using hxb
    have hms : Content.moveShift a b s = x := by simpa using heq
    exact moveShift_ne_to a b s hab hsa (hms.trans hxb')

/-- Two maps with duplicate-free keys and the same entries have the
same lookups. -/
theorem lookupA_congr_of_mem_iff {κ β : Type} [DecidableEq κ]
    {l1 l2 : List (κ × β)} (h1 : (keysA l1).Nodup) (h2 : (keysA l2).Nodup)
    (hm : ∀ p : κ × β, p ∈ l1 ↔ p ∈ l2) (k : κ) :
    lookupA k l1 = lookupA k l2 := by
  cases hl2 : lookupA k l2 with
  | some v => exact lookupA_of_mem h1 ((hm (k, v)).mpr (lookupA_mem hl2))
  | none =>
    cases hl1 : lookupA k l1 with
    | none => rfl
    | some v =>
      have hmem := (hm (k, v)).mp (lookupA_mem hl1)
      exact Option.noConfusion ((lookupA_of_mem h2 hmem).symm.trans hl2)

/-- A successful `move_frame` call: the result's primary map, spelled
out (the uuid index and the recomputed counter are untouched by the
round-trip claim). -/
theorem move_frame_ok {α : Type} (c : Content α) (a b : Int) (fa : WorkableFrame)
    (ha : lookupA a c.frames_by_seq = some fa) (hb : ¬ b < 0) (hab : ¬ a = b) :
    ∃ c', c.move_frame a b = .ok c' ∧
      c'.frames_by_seq = dictInsert b { fa with seq := b }
        ((c.frames_by_seq.insertionSort (fun p q => p.1 ≤ q.1)).foldl
          (Content.moveStepMap a b) []) ∧
      c'.local_workables_cache = c.local_workables_cache := by
  unfold Content.move_frame
  simp only [ha]
  rw [if_neg hb, if_neg hab]
  rcases hfold : (c.frames_by_seq.insertionSort (fun p q => p.1 ≤ q.1)).foldl
      (Content.moveStep a b) ([], c.frames_by_uuid) with ⟨nm, fbu0⟩
  have hnm : nm = (c.frames_by_seq.insertionSort (fun p q => p.1 ≤ q.1)).foldl
      (Content.moveStepMap a b) [] := by
    have h := foldl_moveStep_fst a b (c.frames_by_seq.insertionSort (fun p q => p.1 ≤ q.1))
      [] c.frames_by_uuid
    rw [hfold] at h
    exact h
  simp only [hfold]
  subst hnm
  exact ⟨_, rfl, rfl, rfl⟩

/-- `move_frame(a, a)` succeeds and leaves the content untouched. -/
theorem move_frame_self {α : Type} (c : Content α) (a : Int) (fa : WorkableFrame)
    (ha : lookupA a c.frames_by_seq = some fa) (ha0 : 0 ≤ a) :
    c.move_frame a a = .ok c := by
  unfold Content.move_frame
  simp only [ha]
  rw [if_neg (show ¬ (a : Int) < 0 from by omega)]
  simp

/-! # Claim C8 -/

/-- C8: on a content whose primary map has no duplicate sequence
numbers and whose frames record their own sequence number (both hold on
every state the content module itself builds), with frames stored at
the non-negative sequence numbers `a` and `b`, `move_frame(a, b)`
followed by `move_frame(b, a)` succeeds and restores the original
seq-to-frame mapping: every lookup in the final primary map agrees with
the original one. -/
theorem C8_move_frame_roundtrip {α : Type} (c : Content α) (a b : Int)
    (fa fb : WorkableFrame)
    (hnd : (keysA c.frames_by_seq).Nodup)
    (hseq : ∀ p ∈ c.frames_by_seq, (p.2).seq = p.1)
    (ha : lookupA a c.frames_by_seq = some fa)
    (hb : lookupA b c.frames_by_seq = some fb)
    (ha0 : 0 ≤ a) (hb0 : 0 ≤ b) :
    ∃ c1 c2, c.move_frame a b = .ok c1 ∧ c1.move_frame b a = .ok c2 ∧
      ∀ s, lookupA s c2.frames_by_seq = lookupA s c.frames_by_seq := by
  by_cases hab : a = b
  · subst hab
    exact ⟨c, c, move_frame_self c a fa ha ha0,
      move_frame_self c a fa ha ha0, fun s => rfl⟩
  · obtain ⟨c1, hmv1, hfs1, _⟩ := move_frame_ok c a b fa ha (by omega) hab
    have hnd1 : (keysA c1.frames_by_seq).Nodup := by
      rw [hfs1]; exact nodup_move_result c a b fa hnd hab
    have hmem1 : ∀ t g, ((t, g) ∈ c1.frames_by_seq) ↔
        ((t = b ∧ g = { fa with seq := b }) ∨
          ∃ s f, (s, f) ∈ c.frames_by_seq ∧ ¬ s = a ∧
            t = Content.moveShift a b s ∧
            g = { f with seq := Content.moveShift a b s }) := by
      intro t g
      rw [hfs1]
      exact mem_move_result_iff c a b fa hnd hab t g
    have hfa1 : lookupA b c1.frames_by_seq = some { fa with seq := b } :=
      lookupA_of_mem hnd1 ((hmem1 b { fa with seq := b }).mpr (Or.inl ⟨rfl, rfl⟩))
    have hba : ¬ b = a := fun h => hab h.symm
    obtain ⟨c2, hmv2, hfs2, _⟩ :=
      move_frame_ok c1 b a { fa with seq := b } hfa1 (by omega) hba
    have hnd2 : (keysA c2.frames_by_seq).Nodup := by
      rw [hfs2]; exact nodup_move_result c1 b a { fa with seq := b } hnd1 hba
    have hmem2 : ∀ t g, ((t, g) ∈ c2.frames_by_seq) ↔
        ((t = a ∧ g = { { fa with seq := b } with seq := a }) ∨
          ∃ s f, (s, f) ∈ c1.frames_by_seq ∧ ¬ s = b ∧
            t = Content.moveShift b a s ∧
            g = { f with seq := Content.moveShift b a s }) := by
      intro t g
      rw [hfs2]
      exact mem_move_result_iff c1 b a { fa with seq := b } hnd1 hba t g
    have hfa_seq : fa.seq = a := hseq (a, fa) (lookupA_mem ha)
    have hfa_eta : ({ fa with seq := a } : WorkableFrame) = fa := by
      rw [← hfa_seq]
    have hfa_eta2 : ({ { fa with seq := b } with seq := a } : WorkableFrame) = fa := hfa_eta
    refine ⟨c1, c2, hmv1, hmv2, fun s => lookupA_congr_of_mem_iff hnd2 hnd ?_ s⟩
    rintro ⟨t, g⟩
    constructor
    · intro hin
      rcases (hmem2 t g).mp hin with ⟨hta, hg⟩ | ⟨s, f, hsf1, hsb, hts, hg⟩
      · have hg' : g = fa := hg.trans hfa_eta2
        rw [hta, hg']
        exact lookupA_mem ha
      · rcases (hmem1 s f).mp hsf1 with ⟨hsb', _⟩ | ⟨u, f', hsf, hua, hsu, hf⟩
        · exact absurd hsb' hsb
        · have hrt : Content.moveShift b a (Content.moveShift a b u) = u :=
            moveShift_roundtrip a b u hab hua
          have hfseq : f'.seq = u := hseq (u, f') hsf
          have htu : t = u := by rw [hts, hsu, hrt]
          have hfeta : ({ f' with seq := u } : WorkableFrame) = f' := by rw [← hfseq]
          have hgf : g = f' := by
            rw [hg, hf, hsu, hrt]
            exact hfeta
          rw [htu, hgf]
          exact hsf
    · intro hin
      by_cases hta : t = a
      · have hpq : ((t, g) : Int × WorkableFrame) = (a, fa) :=
          eq_of_mem_of_fst_eq hnd hin (lookupA_mem ha) hta
        rw [hpq]
        exact (hmem2 a fa).mpr (Or.inl ⟨rfl, hfa_eta2.symm⟩)
      · apply (hmem2 t g).mpr
        right
        have hgseq : g.seq = t := hseq (t, g) hin
        have hgeta : ({ g with seq := t } : WorkableFrame) = g := by rw [← hgseq]
        have hgeta2 : ({ { g with seq := Content.moveShift a b t } with seq := t } :
            WorkableFrame) = g := hgeta
        refine ⟨Content.moveShift a b t, { g with seq := Content.moveShift a b t },
          ?_, moveShift_ne_to a b t hab hta, ?_, ?_⟩
        · apply (hmem1 _ _).mpr
          right
          exact ⟨t, g, hin, hta, rfl, rfl⟩
        · exact (moveShift_roundtrip a b t hab hta).symm
        · rw [moveShift_roundtrip a b t hab hta]
          exact hgeta2.symm

/-- C8, witness: the round trip applied to a concrete two-frame
content at seqs 1 and 2. -/
theorem C8_witness :
    ∃ c1 c2, cC8.move_frame 1 2 = .ok c1 ∧ c1.move_frame 2 1 = .ok c2 ∧
      ∀ s, lookupA s c2.frames_by_seq = lookupA s cC8.frames_by_seq :=
  C8_move_frame_roundtrip cC8 1 2
    ⟨"a", "d", 1, "child", some "u1", []⟩
    ⟨"b", "d", 2, "reference", some "u2", []⟩
    (by decide) (by decide) (by rfl) (by rfl) (by decide) (by decide)

/-! # Proof infrastructure for claim C3: well-formedness preservation -/

theorem exceptBind_ok {ε α β : Type} {x : Except ε α} {f : α → Except ε β} {b : β}
    (h : (x >>= f) = .ok b) : ∃ a, x = .ok a ∧ f a = .ok b := by
  cases x with
  | error e => simp [Bind.bind, Except.bind] at h
  | ok a => exact ⟨a, rfl, by simpa [Bind.bind, Except.bind] using h⟩

theorem except_pure_ok {ε β : Type} {a b : β} (h : (pure a : Except ε β) = .ok b) :
    a = b := by
  simpa [pure, Except.pure] using h

theorem WFC.toWFC0 {α : Type} {c : Content α} (h : WFC c) : WFC0 c :=
  ⟨h.nodupSeq, h.nodupUuid, h.nodupCache, h.seqPos, h.nextPos,
   h.idxEntries, h.idxComplete, h.exrefNE⟩

theorem WFC.ofParts {α : Type} {c : Content α} (h0 : WFC0 c)
    (hlc : ∀ s f, lookupA s c.frames_by_seq = some f → f.frame_type = "local" →
      ∃ u, f.exref = some u ∧ u ∈ keysA c.local_workables_cache)
    (hcl : ∀ u ∈ keysA c.local_workables_cache,
      ∃ s f, lookupA s c.frames_by_seq = some f ∧ f.exref = some u ∧
        f.frame_type = "local") : WFC c :=
  ⟨h0.nodupSeq, h0.nodupUuid, h0.nodupCache, h0.seqPos, h0.nextPos,
   h0.idxEntries, h0.idxComplete, h0.exrefNE, hlc, hcl⟩

theorem WFC_init : WFC (Content.init : Content Workable) := by
  refine ⟨?_, ?_, ?_, ?_, ?_, ?_, ?_, ?_, ?_, ?_⟩ <;>
    simp [Content.init, keysA, lookupA]

theorem validate_clean_of_WFC {α : Type} (c : Content α) (hw : WFC c) :
    c.validate = (true, [], []) := by
  have horph : ∀ (p : Int × WorkableFrame), p ∈ c.frames_by_seq →
      ¬ (pyTruthy p.2.get_reference_uuid = true ∧ p.2.is_local = true ∧
        ¬ (p.2.get_reference_uuid.getD "") ∈ keysA c.local_workables_cache) := by
    rintro ⟨s, f⟩ hmem ⟨htr, hloc, hnc⟩
    have hlk := lookupA_of_mem hw.nodupSeq hmem
    have hft : f.frame_type = "local" := by
      simpa [WorkableFrame.is_local] using hloc
    obtain ⟨u, hex, huc⟩ := hw.localCached s f hlk hft
    apply hnc
    simp only [WorkableFrame.get_reference_uuid, hex, Option.getD_some]
    exact huc
  have hghost : ∀ u ∈ keysA c.local_workables_cache,
      u ∈ keysA c.frames_by_uuid := by
    intro u hu
    obtain ⟨s, f, hlk, hex, hft⟩ := hw.cacheLocal u hu
    obtain ⟨ss, hss, _⟩ := hw.idxComplete s f hlk u hex
    rw [← lookupA_isSome_iff, hss]
    rfl
  unfold Content.validate
  simp only [Prod.mk.injEq, decide_eq_true_eq, List.map_eq_nil_iff,
    List.filter_eq_nil_iff]
  refine ⟨⟨?_, ?_⟩, ?_, ?_⟩
  · intro p hp
    simpa using horph p hp
  · intro u hu
    simpa using hghost u hu
  · intro p hp
    simpa using horph p hp
  · intro u hu
    simpa using hghost u hu

/-- Successful `add_frame` calls have nonempty name and description, and
carry a reference unless the frame type is `"empty"`. -/
theorem add_frame_ok_args {α : Type} {c c' : Content α} {n d ft : String}
    {uu : Option String} {il : Bool} {md : List (String × String)} {s₀ : Int}
    (h : c.add_frame n d ft uu il md = .ok (s₀, c')) :
    n ≠ "" ∧ d ≠ "" ∧ ¬ (uu = none ∧ ft ≠ "empty") := by
  unfold Content.add_frame at h
  split at h
  · cases h
  · split at h
    · cases h
    · rename_i h1 h2
      push_neg at h1
      exact ⟨h1.1, h1.2, h2⟩

/-- The state a successful reference-free `add_frame` produces (only
`frame_type = "empty"` passes validation without a uuid). -/
theorem add_frame_ok_none {α : Type} (c : Content α) (n d : String) (il : Bool)
    (md : List (String × String)) (hn : n ≠ "") (hd : d ≠ "") :
    c.add_frame n d "empty" none il md = .ok (c.next_seq, { c with
      frames_by_seq := dictInsert c.next_seq
        ⟨n, d, c.next_seq, (if il then "local" else "empty"), none, md⟩ c.frames_by_seq
      frames_by_type := dictInsert (if il then "local" else "empty")
        (setAdd c.next_seq
          ((lookupA (if il then "local" else "empty") c.frames_by_type).getD []))
        c.frames_by_type
      next_seq := c.next_seq + 1 }) := by
  unfold Content.add_frame
  rw [if_neg (by rintro (h | h); exacts [hn h, hd h]),
    if_neg (by rintro ⟨_, h2⟩; exact h2 rfl)]
  rfl

/-- Planting a frame without a reference at the fresh sequence number
preserves the cache-independent well-formedness fields (the type index
and the cache may be replaced by anything with duplicate-free keys). -/
theorem WFC0_insert_frame_none {α : Type} (c : Content α) (hw : WFC0 c)
    (n d ft : String) (md : List (String × String))
    (fbt' : List (String × List Int)) (cache' : List (String × α))
    (hcn : (keysA cache').Nodup) :
    WFC0 { c with
      frames_by_seq := dictInsert c.next_seq
        ⟨n, d, c.next_seq, ft, none, md⟩ c.frames_by_seq
      frames_by_type := fbt'
      next_seq := c.next_seq + 1
      local_workables_cache := cache' } := by
  have hfresh : ¬ c.next_seq ∈ keysA c.frames_by_seq := fun hm =>
    absurd ((hw.seqPos _ hm).2) (lt_irrefl _)
  have hlive : ∀ s (f : WorkableFrame),
      lookupA s c.frames_by_seq = some f → ¬ s = c.next_seq := by
    intro s f hf he
    subst he
    exact hfresh (lookupA_isSome_iff.mp (by rw [hf]; rfl))
  refine ⟨?_, ?_, ?_, ?_, ?_, ?_, ?_, ?_⟩ <;> dsimp only
  · exact nodup_keysA_dictInsert hw.nodupSeq
  · exact hw.nodupUuid
  · exact hcn
  · intro s hs
    rcases mem_keysA_dictInsert.mp hs with rfl | hs'
    · exact ⟨hw.nextPos, by omega⟩
    · obtain ⟨h1, h2⟩ := hw.seqPos s hs'
      exact ⟨h1, by omega⟩
  · have := hw.nextPos
    omega
  · intro u ss hss
    obtain ⟨h1, h2, h3⟩ := hw.idxEntries u ss hss
    refine ⟨h1, h2, ?_⟩
    intro s hsm
    obtain ⟨f, hf, hex⟩ := h3 s hsm
    refine ⟨f, ?_, hex⟩
    rw [lookupA_dictInsert_ne (hlive s f hf)]
    exact hf
  · intro s f hsf u hex
    by_cases hsN : s = c.next_seq
    · rw [hsN, lookupA_dictInsert_self] at hsf
      have hfF : (⟨n, d, c.next_seq, ft, none, md⟩ : WorkableFrame) = f := by
        injection hsf
      rw [← hfF] at hex
      cases hex
    · rw [lookupA_dictInsert_ne hsN] at hsf
      exact hw.idxComplete s f hsf u hex
  · intro s f hsf
    by_cases hsN : s = c.next_seq
    · rw [hsN, lookupA_dictInsert_self] at hsf
      have hfF : (⟨n, d, c.next_seq, ft, none, md⟩ : WorkableFrame) = f := by
        injection hsf
      rw [← hfF]
      intro hcon
      cases hcon
    · rw [lookupA_dictInsert_ne hsN] at hsf
      exact hw.exrefNE s f hsf

/-- Planting a frame carrying a nonempty reference at the fresh sequence
number, together with the matching uuid-index insertion, preserves the
cache-independent well-formedness fields. -/
theorem WFC0_insert_frame_some {α : Type} (c : Content α) (hw : WFC0 c)
    (n d ft u₀ : String) (md : List (String × String)) (hu0 : u₀ ≠ "")
    (fbt' : List (String × List Int)) (cache' : List (String × α))
    (hcn : (keysA cache').Nodup) :
    WFC0 { c with
      frames_by_seq := dictInsert c.next_seq
        ⟨n, d, c.next_seq, ft, some u₀, md⟩ c.frames_by_seq
      frames_by_uuid := dictInsert u₀
        (setAdd c.next_seq ((lookupA u₀ c.frames_by_uuid).getD []))
        c.frames_by_uuid
      frames_by_type := fbt'
      next_seq := c.next_seq + 1
      local_workables_cache := cache' } := by
  have hfresh : ¬ c.next_seq ∈ keysA c.frames_by_seq := fun hm =>
    absurd ((hw.seqPos _ hm).2) (lt_irrefl _)
  have hlive : ∀ s (f : WorkableFrame),
      lookupA s c.frames_by_seq = some f → ¬ s = c.next_seq := by
    intro s f hf he
    subst he
    exact hfresh (lookupA_isSome_iff.mp (by rw [hf]; rfl))
  refine ⟨?_, ?_, ?_, ?_, ?_, ?_, ?_, ?_⟩ <;> dsimp only
  · exact nodup_keysA_dictInsert hw.nodupSeq
  · exact nodup_keysA_dictInsert hw.nodupUuid
  · exact hcn
  · intro s hs
    rcases mem_keysA_dictInsert.mp hs with rfl | hs'
    · exact ⟨hw.nextPos, by omega⟩
    · obtain ⟨h1, h2⟩ := hw.seqPos s hs'
      exact ⟨h1, by omega⟩
  · have := hw.nextPos
    omega
  · intro u ss hss
    by_cases hu : u = u₀
    · rw [hu, lookupA_dictInsert_self] at hss
      have hssEq : setAdd c.next_seq ((lookupA u₀ c.frames_by_uuid).getD []) = ss := by
        injection hss
      refine ⟨?_, ?_, ?_⟩
      · rw [← hssEq]
        exact List.ne_nil_of_mem (mem_setAdd.mpr (Or.inl rfl))
      · rw [← hssEq]
        cases hlk0 : lookupA u₀ c.frames_by_uuid with
        | none =>
          simp only [Option.getD_none]
          exact nodup_setAdd List.nodup_nil
        | some ss₁ =>
          simp only [Option.getD_some]
          exact nodup_setAdd (hw.idxEntries u₀ ss₁ hlk0).2.1
      · intro s hsm
        rw [← hssEq] at hsm
        rcases mem_setAdd.mp hsm with rfl | hsm'
        · refine ⟨⟨n, d, c.next_seq, ft, some u₀, md⟩, lookupA_dictInsert_self, ?_⟩
          rw [hu]
        · cases hlk0 : lookupA u₀ c.frames_by_uuid with
          | none =>
            rw [hlk0] at hsm'
            simp at hsm'
          | some ss₁ =>
            rw [hlk0] at hsm'
            simp only [Option.getD_some] at hsm'
            obtain ⟨f, hf, hex⟩ := (hw.idxEntries u₀ ss₁ hlk0).2.2 s hsm'
            refine ⟨f, ?_, ?_⟩
            · rw [lookupA_dictInsert_ne (hlive s f hf)]
              exact hf
            · rw [hu]
              exact hex
    · rw [lookupA_dictInsert_ne hu] at hss
      obtain ⟨h1, h2, h3⟩ := hw.idxEntries u ss hss
      refine ⟨h1, h2, ?_⟩
      intro s hsm
      obtain ⟨f, hf, hex⟩ := h3 s hsm
      refine ⟨f, ?_, hex⟩
      rw [lookupA_dictInsert_ne (hlive s f hf)]
      exact hf
  · intro s f hsf u hex
    by_cases hsN : s = c.next_seq
    · rw [hsN, lookupA_dictInsert_self] at hsf
      have hfF : (⟨n, d, c.next_seq, ft, some u₀, md⟩ : WorkableFrame) = f := by
        injection hsf
      rw [← hfF] at hex
      have hex' : some u₀ = some u := hex
      have hu : u₀ = u := by injection hex'
      refine ⟨setAdd c.next_seq ((lookupA u₀ c.frames_by_uuid).getD []), ?_, ?_⟩
      · rw [← hu]
        exact lookupA_dictInsert_self
      · rw [hsN]
        exact mem_setAdd.mpr (Or.inl rfl)
    · rw [lookupA_dictInsert_ne hsN] at hsf
      obtain ⟨ss, hss, hmem⟩ := hw.idxComplete s f hsf u hex
      by_cases hu : u = u₀
      · refine ⟨setAdd c.next_seq ((lookupA u₀ c.frames_by_uuid).getD []), ?_, ?_⟩
        · rw [hu]
          exact lookupA_dictInsert_self
        · rw [hu] at hss
          rw [hss]
          simp only [Option.getD_some]
          exact mem_setAdd.mpr (Or.inr hmem)
      · refine ⟨ss, ?_, hmem⟩
        rw [lookupA_dictInsert_ne hu]
        exact hss
  · intro s f hsf
    by_cases hsN : s = c.next_seq
    · rw [hsN, lookupA_dictInsert_self] at hsf
      have hfF : (⟨n, d, c.next_seq, ft, some u₀, md⟩ : WorkableFrame) = f := by
        injection hsf
      rw [← hfF]
      intro hcon
      have hcon' : some u₀ = some "" := hcon
      have : u₀ = "" := by injection hcon'
      exact hu0 this
    · rw [lookupA_dictInsert_ne hsN] at hsf
      exact hw.exrefNE s f hsf

/-- A live sequence number is never the fresh one. -/
theorem lookupA_live_ne_next {α : Type} {c : Content α} (hw0 : WFC0 c)
    {s : Int} {f : WorkableFrame} (hf : lookupA s c.frames_by_seq = some f) :
    ¬ s = c.next_seq := by
  intro he
  subst he
  have hm : c.next_seq ∈ keysA c.frames_by_seq :=
    lookupA_isSome_iff.mp (by rw [hf]; rfl)
  exact absurd ((hw0.seqPos _ hm).2) (lt_irrefl _)

/-- A successful `add_frame` step that does not plant a `local`-typed
frame and does not carry an empty reference preserves well-formedness. -/
theorem WFC_add_frame {c c' : Content Workable} {n d ft : String}
    {uu : Option String} {il : Bool}
    (hw : WFC c) (hil : il = false) (hft : ft ≠ "local") (hue : uu ≠ some "")
    (h : runOp c (.add_frame n d ft uu il) = .ok c') : WFC c' := by
  subst hil
  unfold runOp at h
  obtain ⟨⟨s₀, c₀⟩, hx, hf⟩ := exceptBind_ok h
  have hc0 : c₀ = c' := except_pure_ok hf
  subst hc0
  obtain ⟨hn, hd, hcond⟩ := add_frame_ok_args hx
  cases uu with
  | none =>
    have hfe : ft = "empty" := by
      by_contra hfe
      exact hcond ⟨rfl, hfe⟩
    subst hfe
    rw [add_frame_ok_none c n d false [] hn hd] at hx
    injection hx with hp
    rw [Prod.mk.injEq] at hp
    obtain ⟨_, hc⟩ := hp
    subst hc
    apply WFC.ofParts
    · exact WFC0_insert_frame_none c hw.toWFC0 n d _ [] _ _ hw.nodupCache
    · intro s f hsf hftl
      dsimp only at hsf ⊢
      by_cases hsN : s = c.next_seq
      · rw [hsN, lookupA_dictInsert_self] at hsf
        have hfF : (⟨n, d, c.next_seq, (if false then "local" else "empty"),
            none, []⟩ : WorkableFrame) = f := by
          injection hsf
        rw [← hfF] at hftl
        exact absurd (show ("empty" : String) = "local" from hftl) (by decide)
      · rw [lookupA_dictInsert_ne hsN] at hsf
        exact hw.localCached s f hsf hftl
    · intro u hu
      dsimp only at hu ⊢
      obtain ⟨s, f, hlk, hex, hftl⟩ := hw.cacheLocal u hu
      refine ⟨s, f, ?_, hex, hftl⟩
      rw [lookupA_dictInsert_ne (lookupA_live_ne_next hw.toWFC0 hlk)]
      exact hlk
  | some u₀ =>
    have hu0 : u₀ ≠ "" := fun he => hue (by rw [he])
    rw [add_frame_ok_some c n d ft u₀ false [] hn hd] at hx
    injection hx with hp
    rw [Prod.mk.injEq] at hp
    obtain ⟨_, hc⟩ := hp
    rw [show pyTruthy (some u₀) = true by simp [pyTruthy, hu0]] at hc
    rw [if_pos rfl] at hc
    subst hc
    apply WFC.ofParts
    · exact WFC0_insert_frame_some c hw.toWFC0 n d _ u₀ [] hu0 _ _ hw.nodupCache
    · intro s f hsf hftl
      dsimp only at hsf ⊢
      by_cases hsN : s = c.next_seq
      · rw [hsN, lookupA_dictInsert_self] at hsf
        have hfF : (⟨n, d, c.next_seq, (if false then "local" else ft),
            some u₀, []⟩ : WorkableFrame) = f := by
          injection hsf
        rw [← hfF] at hftl
        have hftl' : ft = "local" := hftl
        exact absurd hftl' hft
      · rw [lookupA_dictInsert_ne hsN] at hsf
        exact hw.localCached s f hsf hftl
    · intro u hu
      dsimp only at hu ⊢
      obtain ⟨s, f, hlk, hex, hftl⟩ := hw.cacheLocal u hu
      refine ⟨s, f, ?_, hex, hftl⟩
      rw [lookupA_dictInsert_ne (lookupA_live_ne_next hw.toWFC0 hlk)]
      exact hlk

/-- A successful `add_local_workable` step caching a unit with a
nonempty id preserves well-formedness: the planted `local` frame
references the freshly cached id. -/
theorem WFC_add_local_workable {c c' : Content Workable} {w : Workable}
    (hw : WFC c) (hwu : w.uuid ≠ "")
    (h : runOp c (.add_local_workable w) = .ok c') : WFC c' := by
  unfold runOp at h
  obtain ⟨⟨s₀, c₀⟩, hx, hf⟩ := exceptBind_ok h
  have hc0 : c₀ = c' := except_pure_ok hf
  subst hc0
  unfold Content.add_local_workable at hx
  split at hx
  · cases hx
  · obtain ⟨hn, hd, _⟩ := add_frame_ok_args hx
    rw [add_frame_ok_some
      { c with local_workables_cache := dictInsert w.uuid w c.local_workables_cache }
      w.name w.logic_description "local" w.uuid true [] hn hd] at hx
    injection hx with hp
    rw [Prod.mk.injEq] at hp
    obtain ⟨_, hc⟩ := hp
    rw [show pyTruthy (some w.uuid) = true by simp [pyTruthy, hwu]] at hc
    rw [if_pos rfl] at hc
    subst hc
    apply WFC.ofParts
    · exact WFC0_insert_frame_some c hw.toWFC0 w.name w.logic_description _
        w.uuid [] hwu _ _ (nodup_keysA_dictInsert hw.nodupCache)
    · intro s f hsf hftl
      dsimp only at hsf ⊢
      by_cases hsN : s = c.next_seq
      · rw [hsN, lookupA_dictInsert_self] at hsf
        have hfF : (⟨w.name, w.logic_description, c.next_seq,
            (if true then "local" else "local"), some w.uuid, []⟩ :
              WorkableFrame) = f := by
          injection hsf
        refine ⟨w.uuid, ?_, ?_⟩
        · rw [← hfF]
        · exact mem_keysA_dictInsert.mpr (Or.inl rfl)
      · rw [lookupA_dictInsert_ne hsN] at hsf
        obtain ⟨u', hex, huc⟩ := hw.localCached s f hsf hftl
        exact ⟨u', hex, mem_keysA_dictInsert.mpr (Or.inr huc)⟩
    · intro u hu
      dsimp only at hu ⊢
      rcases mem_keysA_dictInsert.mp hu with rfl | hu'
      · exact ⟨c.next_seq, ⟨w.name, w.logic_description, c.next_seq,
          (if true then "local" else "local"), some w.uuid, []⟩,
          lookupA_dictInsert_self, rfl, rfl⟩
      · obtain ⟨s, f, hlk, hex, hftl⟩ := hw.cacheLocal u hu'
        refine ⟨s, f, ?_, hex, hftl⟩
        rw [lookupA_dictInsert_ne (lookupA_live_ne_next hw.toWFC0 hlk)]
        exact hlk

/-- Erasing a live frame, together with `remove_frame`'s uuid-index
discard, preserves the cache-independent well-formedness fields. -/
theorem WFC0_erase_frame {α : Type} (c : Content α) (hw : WFC0 c) (s : Int)
    (fr : WorkableFrame) (heq : lookupA s c.frames_by_seq = some fr)
    (fbt' : List (String × List Int)) :
    WFC0 { c with
      frames_by_seq := dictErase s c.frames_by_seq
      frames_by_uuid :=
        (match fr.exref with
          | some u =>
            (match lookupA u c.frames_by_uuid with
              | some ss =>
                if setDiscard s ss = [] then dictErase u c.frames_by_uuid
                else dictInsert u (setDiscard s ss) c.frames_by_uuid
              | none => c.frames_by_uuid)
          | none => c.frames_by_uuid)
      frames_by_type := fbt' } := by
  have herase : ∀ (s' : Int) (f : WorkableFrame),
      lookupA s' (dictErase s c.frames_by_seq) = some f → s' ≠ s := by
    intro s' f hf he
    subst he
    rw [lookupA_dictErase_self hw.nodupSeq] at hf
    cases hf
  rcases hexc : fr.exref with _ | u
  · simp only [hexc]
    have hconf : ∀ (s' : Int) (f : WorkableFrame) (u' : String),
        lookupA s' c.frames_by_seq = some f → f.exref = some u' → s' ≠ s := by
      intro s' f u' hf hex he
      subst he
      rw [heq] at hf
      injection hf with hff
      rw [← hff] at hex
      rw [hexc] at hex
      cases hex
    refine ⟨?_, ?_, ?_, ?_, ?_, ?_, ?_, ?_⟩ <;> dsimp only
    · exact nodup_keysA_dictErase hw.nodupSeq
    · exact hw.nodupUuid
    · exact hw.nodupCache
    · intro s' hs'
      exact hw.seqPos s' (mem_keysA_dictErase_sub hs')
    · exact hw.nextPos
    · intro u' ss' hss'
      obtain ⟨h1, h2, h3⟩ := hw.idxEntries u' ss' hss'
      refine ⟨h1, h2, ?_⟩
      intro s' hsm
      obtain ⟨f, hf, hex⟩ := h3 s' hsm
      refine ⟨f, ?_, hex⟩
      rw [lookupA_dictErase_ne (hconf s' f u' hf hex)]
      exact hf
    · intro s' f hsf u' hex
      have hs's := herase s' f hsf
      rw [lookupA_dictErase_ne hs's] at hsf
      exact hw.idxComplete s' f hsf u' hex
    · intro s' f hsf
      have hs's := herase s' f hsf
      rw [lookupA_dictErase_ne hs's] at hsf
      exact hw.exrefNE s' f hsf
  · have hconf : ∀ (s' : Int) (f : WorkableFrame) (u' : String),
        lookupA s' c.frames_by_seq = some f → f.exref = some u' → u' ≠ u →
          s' ≠ s := by
      intro s' f u' hf hex hu'u he
      subst he
      rw [heq] at hf
      injection hf with hff
      rw [← hff] at hex
      rw [hexc] at hex
      injection hex with h'
      exact hu'u h'.symm
    simp only [hexc]
    obtain ⟨ss, hss, hsmem⟩ := hw.idxComplete s fr heq u hexc
    simp only [hss]
    by_cases hnil : setDiscard s ss = []
    · rw [if_pos hnil]
      have hall : ∀ x ∈ ss, x = s := setDiscard_eq_nil_iff.mp hnil
      refine ⟨?_, ?_, ?_, ?_, ?_, ?_, ?_, ?_⟩ <;> dsimp only
      · exact nodup_keysA_dictErase hw.nodupSeq
      · exact nodup_keysA_dictErase hw.nodupUuid
      · exact hw.nodupCache
      · intro s' hs'
        exact hw.seqPos s' (mem_keysA_dictErase_sub hs')
      · exact hw.nextPos
      · intro u' ss' hss'
        have hu'u : u' ≠ u := by
          intro he
          rw [he, lookupA_dictErase_self hw.nodupUuid] at hss'
          cases hss'
        rw [lookupA_dictErase_ne hu'u] at hss'
        obtain ⟨h1, h2, h3⟩ := hw.idxEntries u' ss' hss'
        refine ⟨h1, h2, ?_⟩
        intro s' hsm
        obtain ⟨f, hf, hex⟩ := h3 s' hsm
        refine ⟨f, ?_, hex⟩
        rw [lookupA_dictErase_ne (hconf s' f u' hf hex hu'u)]
        exact hf
      · intro s' f hsf u' hex
        have hs's := herase s' f hsf
        rw [lookupA_dictErase_ne hs's] at hsf
        obtain ⟨ss₂, hss₂, hmem₂⟩ := hw.idxComplete s' f hsf u' hex
        have hu'u : u' ≠ u := by
          intro he
          rw [he, hss] at hss₂
          have hsseq : ss = ss₂ := by injection hss₂
          rw [← hsseq] at hmem₂
          exact hs's (hall s' hmem₂)
        refine ⟨ss₂, ?_, hmem₂⟩
        rw [lookupA_dictErase_ne hu'u]
        exact hss₂
      · intro s' f hsf
        have hs's := herase s' f hsf
        rw [lookupA_dictErase_ne hs's] at hsf
        exact hw.exrefNE s' f hsf
    · rw [if_neg hnil]
      refine ⟨?_, ?_, ?_, ?_, ?_, ?_, ?_, ?_⟩ <;> dsimp only
      · exact nodup_keysA_dictErase hw.nodupSeq
      · exact nodup_keysA_dictInsert hw.nodupUuid
      · exact hw.nodupCache
      · intro s' hs'
        exact hw.seqPos s' (mem_keysA_dictErase_sub hs')
      · exact hw.nextPos
      · intro u' ss' hss'
        by_cases hu'u : u' = u
        · rw [hu'u, lookupA_dictInsert_self] at hss'
          have hsseq : setDiscard s ss = ss' := by injection hss'
          obtain ⟨h1, h2, h3⟩ := hw.idxEntries u ss hss
          refine ⟨?_, ?_, ?_⟩
          · rw [← hsseq]
            exact hnil
          · rw [← hsseq]
            exact nodup_setDiscard h2
          · intro s' hsm
            rw [← hsseq] at hsm
            obtain ⟨hsm', hs's⟩ := mem_setDiscard.mp hsm
            obtain ⟨f, hf, hex⟩ := h3 s' hsm'
            refine ⟨f, ?_, ?_⟩
            · rw [lookupA_dictErase_ne hs's]
              exact hf
            · rw [hu'u]
              exact hex
        · rw [lookupA_dictInsert_ne hu'u] at hss'
          obtain ⟨h1, h2, h3⟩ := hw.idxEntries u' ss' hss'
          refine ⟨h1, h2, ?_⟩
          intro s' hsm
          obtain ⟨f, hf, hex⟩ := h3 s' hsm
          refine ⟨f, ?_, hex⟩
          rw [lookupA_dictErase_ne (hconf s' f u' hf hex hu'u)]
          exact hf
      · intro s' f hsf u' hex
        have hs's := herase s' f hsf
        rw [lookupA_dictErase_ne hs's] at hsf
        obtain ⟨ss₂, hss₂, hmem₂⟩ := hw.idxComplete s' f hsf u' hex
        by_cases hu'u : u' = u
        · rw [hu'u, hss] at hss₂
          have hsseq : ss = ss₂ := by injection hss₂
          refine ⟨setDiscard s ss, ?_, ?_⟩
          · rw [hu'u]
            exact lookupA_dictInsert_self
          · rw [hsseq]
            exact mem_setDiscard.mpr ⟨hmem₂, hs's⟩
        · refine ⟨ss₂, ?_, hmem₂⟩
          rw [lookupA_dictInsert_ne hu'u]
          exact hss₂
      · intro s' f hsf
        have hs's := herase s' f hsf
        rw [lookupA_dictErase_ne hs's] at hsf
        exact hw.exrefNE s' f hsf

/-- Inversion of a successful `remove_frame`: the removed frame was
live, and the caller sees exactly the erase plus the two index
discards (the reference discard fires because no live frame carries an
empty reference). -/
theorem remove_frame_ok_inv {α : Type} {c c' : Content α} {s : Int}
    {fr : WorkableFrame} (hw : WFC0 c) (h : c.remove_frame s = .ok (fr, c')) :
    lookupA s c.frames_by_seq = some fr ∧
    c' = { c with
      frames_by_seq := dictErase s c.frames_by_seq
      frames_by_uuid :=
        (match fr.exref with
          | some u =>
            (match lookupA u c.frames_by_uuid with
              | some ss =>
                if setDiscard s ss = [] then dictErase u c.frames_by_uuid
                else dictInsert u (setDiscard s ss) c.frames_by_uuid
              | none => c.frames_by_uuid)
          | none => c.frames_by_uuid)
      frames_by_type :=
        (match lookupA fr.frame_type c.frames_by_type with
          | some ss =>
            if setDiscard s ss = [] then dictErase fr.frame_type c.frames_by_type
            else dictInsert fr.frame_type (setDiscard s ss) c.frames_by_type
          | none => c.frames_by_type) } := by
  unfold Content.remove_frame at h
  split at h
  · cases h
  · rename_i frame heq
    injection h with hp
    rw [Prod.mk.injEq] at hp
    obtain ⟨hfr, hc⟩ := hp
    subst hfr
    refine ⟨heq, ?_⟩
    rw [← hc]
    rcases hexc : frame.exref with _ | u
    · simp only [WorkableFrame.get_reference_uuid, hexc]
    · have hune : u ≠ "" := fun he => (hw.exrefNE s frame heq) (by rw [hexc, he])
      simp only [WorkableFrame.get_reference_uuid, hexc]
      rw [show pyTruthy (some u) = true by simp [pyTruthy, hune]]
      simp only [if_true]

/-- A successful `remove_frame` step that strips a non-`local` frame
preserves well-formedness. -/
theorem WFC_remove_frame {c c' : Content Workable} {s : Int}
    (hw : WFC c)
    (hgs : ∀ f, lookupA s c.frames_by_seq = some f → f.frame_type ≠ "local")
    (h : runOp c (.remove_frame s) = .ok c') : WFC c' := by
  unfold runOp at h
  obtain ⟨⟨fr, c₀⟩, hx, hf⟩ := exceptBind_ok h
  have hc0 : c₀ = c' := except_pure_ok hf
  subst hc0
  obtain ⟨heq, hc⟩ := remove_frame_ok_inv hw.toWFC0 hx
  subst hc
  apply WFC.ofParts
  · exact WFC0_erase_frame c hw.toWFC0 s fr heq _
  · intro s' f hsf hftl
    dsimp only at hsf ⊢
    have hs's : s' ≠ s := by
      intro he
      rw [he, lookupA_dictErase_self hw.nodupSeq] at hsf
      cases hsf
    rw [lookupA_dictErase_ne hs's] at hsf
    exact hw.localCached s' f hsf hftl
  · intro u hu
    dsimp only at hu ⊢
    obtain ⟨s', f, hlk, hex, hftl⟩ := hw.cacheLocal u hu
    have hs's : s' ≠ s := by
      intro he
      rw [he, heq] at hlk
      have hffr : fr = f := by injection hlk
      rw [← hffr] at hftl
      exact hgs fr heq hftl
    refine ⟨s', f, ?_, hex, hftl⟩
    rw [lookupA_dictErase_ne hs's]
    exact hlk

/-- The removal loop of `remove_local_workable`: erasing, one by one, a
duplicate-free batch of live frames that all reference the just-dropped
cache id `u` restores full well-formedness once the batch is empty. -/
theorem WFC_fold_remove (u : String) :
    ∀ (l : List Int) (c c' : Content Workable),
    List.foldlM (fun acc s => do
      let (_, acc') ← acc.remove_frame s
      pure acc') c l = .ok c' →
    l.Nodup →
    WFC0 c →
    ¬ u ∈ keysA c.local_workables_cache →
    (∀ s ∈ l, ∃ f, lookupA s c.frames_by_seq = some f ∧ f.exref = some u) →
    (∀ s f, lookupA s c.frames_by_seq = some f → f.frame_type = "local" →
      ∃ u', f.exref = some u' ∧
        (u' ∈ keysA c.local_workables_cache ∨ (u' = u ∧ s ∈ l))) →
    (∀ u' ∈ keysA c.local_workables_cache,
      ∃ s f, lookupA s c.frames_by_seq = some f ∧ f.exref = some u' ∧
        f.frame_type = "local") →
    WFC c'
  | [], c, c', hfold, _, hw0, _, _, hloc, hwit => by
      have hcc : c = c' := by
        simpa [List.foldlM_nil, pure, Except.pure] using hfold
      subst hcc
      apply WFC.ofParts hw0
      · intro s f hsf hftl
        obtain ⟨u', hex, hor⟩ := hloc s f hsf hftl
        rcases hor with huc | ⟨_, hmem⟩
        · exact ⟨u', hex, huc⟩
        · exact absurd hmem (List.not_mem_nil s)
      · exact hwit
  | s₁ :: l, c, c', hfold, hnd, hw0, hnc, hel, hloc, hwit => by
      rw [List.foldlM_cons] at hfold
      obtain ⟨c₁x, hstep, hrest⟩ := exceptBind_ok hfold
      obtain ⟨⟨fr, c₁⟩, hrf, hpure⟩ := exceptBind_ok hstep
      have hcx : c₁ = c₁x := except_pure_ok hpure
      subst hcx
      obtain ⟨hnds₁, hndl⟩ := List.nodup_cons.mp hnd
      obtain ⟨heq, hc⟩ := remove_frame_ok_inv hw0 hrf
      subst hc
      obtain ⟨f₁, hf₁, hex₁⟩ := hel s₁ (List.mem_cons_self s₁ l)
      have hfrf : f₁ = fr := by
        have h2 := heq
        rw [hf₁] at h2
        injection h2
      have hfrex : fr.exref = some u := by
        rw [← hfrf]
        exact hex₁
      refine WFC_fold_remove u l _ c' hrest hndl
        (WFC0_erase_frame c hw0 s₁ fr heq _) ?_ ?_ ?_ ?_
      · exact hnc
      · intro s hs
        have hsmem : s ∈ s₁ :: l := List.mem_cons_of_mem s₁ hs
        obtain ⟨f, hf, hex⟩ := hel s hsmem
        have hne : s ≠ s₁ := fun he => hnds₁ (he ▸ hs)
        refine ⟨f, ?_, hex⟩
        dsimp only
        rw [lookupA_dictErase_ne hne]
        exact hf
      · intro s f hsf hftl
        dsimp only at hsf
        have hne : s ≠ s₁ := by
          intro he
          rw [he, lookupA_dictErase_self hw0.nodupSeq] at hsf
          cases hsf
        rw [lookupA_dictErase_ne hne] at hsf
        obtain ⟨u', hex, hor⟩ := hloc s f hsf hftl
        rcases hor with huc | ⟨hu'u, hmem⟩
        · exact ⟨u', hex, Or.inl huc⟩
        · rcases List.mem_cons.mp hmem with he | hmem'
          · exact absurd he hne
          · exact ⟨u', hex, Or.inr ⟨hu'u, hmem'⟩⟩
      · intro u' hu'
        obtain ⟨s, f, hlk, hex, hftl⟩ := hwit u' hu'
        have hne : s ≠ s₁ := by
          intro he
          rw [he, hf₁] at hlk
          have hff : f₁ = f := by injection hlk
          rw [← hff] at hex
          rw [hex₁] at hex
          have huu : u = u' := by injection hex
          rw [huu] at hnc
          exact hnc hu'
        refine ⟨s, f, ?_, hex, hftl⟩
        dsimp only
        rw [lookupA_dictErase_ne hne]
        exact hlk

/-- A successful `remove_local_workable` step preserves well-formedness:
the cache entry disappears together with every frame referencing it. -/
theorem WFC_remove_local_workable {c c' : Content Workable} {u : String}
    (hw : WFC c) (h0 : runOp c (.remove_local_workable u) = .ok c') : WFC c' := by
  have h : c.remove_local_workable u = .ok c' := h0
  unfold Content.remove_local_workable at h
  split at h
  · cases h
  · dsimp only at h
    have hLnd : ((lookupA u c.frames_by_uuid).getD []).Nodup := by
      cases hfb : lookupA u c.frames_by_uuid with
      | none => simp
      | some ss =>
        simp only [Option.getD_some]
        exact (hw.idxEntries u ss hfb).2.1
    refine WFC_fold_remove u _ _ c' h ?_ ?_ ?_ ?_ ?_ ?_
    · rw [List.nodup_reverse]
      exact (List.perm_insertionSort _ _).nodup_iff.mpr hLnd
    · exact ⟨hw.nodupSeq, hw.nodupUuid, nodup_keysA_dictErase hw.nodupCache,
        hw.seqPos, hw.nextPos, hw.idxEntries, hw.idxComplete, hw.exrefNE⟩
    · intro hm
      dsimp only at hm
      rw [mem_keysA_dictErase hw.nodupCache] at hm
      exact hm.1 rfl
    · intro s hs
      rw [List.mem_reverse, mem_insertionSort] at hs
      cases hfb : lookupA u c.frames_by_uuid with
      | none =>
        rw [hfb] at hs
        simp at hs
      | some ss =>
        rw [hfb] at hs
        simp only [Option.getD_some] at hs
        obtain ⟨f, hf, hex⟩ := (hw.idxEntries u ss hfb).2.2 s hs
        exact ⟨f, hf, hex⟩
    · intro s f hsf hftl
      obtain ⟨u', hex, hucache⟩ := hw.localCached s f hsf hftl
      by_cases hu'u : u' = u
      · refine ⟨u', hex, Or.inr ⟨hu'u, ?_⟩⟩
        obtain ⟨ss, hss, hmem⟩ := hw.idxComplete s f hsf u' hex
        rw [hu'u] at hss
        rw [List.mem_reverse, mem_insertionSort, hss]
        simp only [Option.getD_some]
        exact hmem
      · refine ⟨u', hex, Or.inl ?_⟩
        dsimp only
        rw [mem_keysA_dictErase hw.nodupCache]
        exact ⟨hu'u, hucache⟩
    · intro u' hu'
      dsimp only at hu'
      rw [mem_keysA_dictErase hw.nodupCache] at hu'
      exact hw.cacheLocal u' hu'.2

/-- Well-formedness is preserved along any good run. -/
theorem GoodRun_WFC {c c' : Content Workable} {ops : List COp}
    (h : GoodRun c ops c') : WFC c → WFC c' := by
  induction h with
  | nil => exact id
  | @cons c₀ c₁ c₂ op ops hgs hrun htail ih =>
    intro hw
    apply ih
    cases op with
    | add_frame n d ft uu il =>
      exact WFC_add_frame hw hgs.1 hgs.2.1 hgs.2.2 hrun
    | add_local_workable w => exact WFC_add_local_workable hw hgs hrun
    | remove_frame s => exact WFC_remove_frame hw hgs hrun
    | remove_local_workable uu => exact WFC_remove_local_workable hw hrun

/-! # Claim C3 -/

/-- C3, counterexample.  One single successful `add_frame` call on a
fresh Content — planting a `local`-typed frame with reference `"u"` —
already breaks the invariant: `validate()` returns `(False, [1], [])`,
reporting the new frame as an orphan, refuting the claim that every
finite sequence of successful mutator calls leaves `validate()` clean. -/
theorem C3_counterexample_local_add_frame :
    (match runOps (Content.init : Content Workable)
        [COp.add_frame "a" "d" "local" (some "u") false] with
      | .ok c => some c.validate
      | .error _ => none) = some (false, [1], []) := by
  rfl

/-- C3 (amended): starting from an empty Content, any finite sequence of
successful `add_frame` / `add_local_workable` / `remove_frame` /
`remove_local_workable` calls leaves `validate()` returning
`(True, [], [])`, provided each `add_frame` plants a non-`local` frame
with no empty-string reference, each `add_local_workable` caches a unit
with a nonempty id, and each `remove_frame` strips a non-`local` frame
(without these provisos single calls already create orphans or ghosts). -/
theorem C3_good_runs_validate (ops : List COp) (c : Content Workable)
    (h : GoodRun Content.init ops c) : c.validate = (true, [], []) :=
  validate_clean_of_WFC c (GoodRun_WFC h WFC_init)

/-- C3, witness: a concrete good run — add a `child` frame referencing
`"x"`, then remove it — ends in a state whose `validate()` is clean. -/
theorem C3_witness :
    (⟨"text", "", [], [], [], 2, []⟩ : Content Workable).validate =
      (true, [], []) :=
  C3_good_runs_validate
    [COp.add_frame "n" "d" "child" (some "x") false, COp.remove_frame 1]
    ⟨"text", "", [], [], [], 2, []⟩
    (GoodRun.cons ⟨rfl, by decide, by decide⟩
      (show runOp Content.init (COp.add_frame "n" "d" "child" (some "x") false) =
        .ok ⟨"text", "", [(1, ⟨"n", "d", 1, "child", some "x", []⟩)],
          [("x", [1])], [("child", [1])], 2, []⟩ from rfl)
      (GoodRun.cons (by intro f hf; cases hf; decide)
        (show runOp ⟨"text", "", [(1, ⟨"n", "d", 1, "child", some "x", []⟩)],
            [("x", [1])], [("child", [1])], 2, []⟩ (COp.remove_frame 1) =
          .ok ⟨"text", "", [], [], [], 2, []⟩ from rfl)
        (GoodRun.nil _)))
